import Mathlib

/-!
Verification of the LogikSim line-tree, insertable-item and logic-value
code against its natural-language specification.

The line tree of `logicitems/linetree.py` stores its topology as a Python
dict of dicts: each key is a grid point `(x, y)` and each value is the dict
of children of that point.  We embed such a dict-of-dicts as the first-order
inductive `TreeD`: `TreeD.cons p c rest` is the dict whose first entry maps
point `p` to the children dict `c`, with `rest` holding the remaining
entries (Python dicts preserve insertion order, which the code relies on,
e.g. `list(tree.keys())[0]`).
-/

namespace LogikSim

/-- A grid point, the `(x, y)` tuple keys of the tree dict. -/
abbrev Pt := Int × Int

/-- The dict-of-dicts storing a line tree (`self._tree` in `linetree.py`). -/
inductive TreeD where
  | nil : TreeD
  | cons (p : Pt) (children : TreeD) (rest : TreeD) : TreeD
  deriving DecidableEq, Repr

namespace TreeD

/-- Number of entries of the (top-level) dict, Python `len(tree)`. -/
def lenTop : TreeD → Nat
  | .nil => 0
  | .cons _ _ rest => lenTop rest + 1

/-- The keys of the (top-level) dict, Python `list(tree.keys())`. -/
def keysTop : TreeD → List Pt
  | .nil => []
  | .cons p _ rest => p :: keysTop rest

/-- Dict lookup `tree[p]` (first entry with key `p`). -/
def lookupD : TreeD → Pt → Option TreeD
  | .nil, _ => none
  | .cons q c rest, p => if q = p then some c else lookupD rest p

/-- Dict assignment `tree[p] = v`: overwrite in place when the key exists,
append a new entry at the end otherwise (Python dict semantics). -/
def dictInsert : TreeD → Pt → TreeD → TreeD
  | .nil, p, v => .cons p v .nil
  | .cons q c rest, p, v =>
    if q = p then .cons q v rest else .cons q c (dictInsert rest p v)

/-- Dict deletion `del tree[p]`: remove the (first) entry with key `p`. -/
def eraseK : TreeD → Pt → TreeD
  | .nil, _ => .nil
  | .cons q c rest, p => if q = p then rest else .cons q c (eraseK rest p)

/-- `a.update(b)` on dicts: insert every entry of `b` into `a` in order. -/
def dictUpdate : TreeD → TreeD → TreeD
  | a, .nil => a
  | a, .cons p c rest => dictUpdate (dictInsert a p c) rest

/-- `LineTree._get_root`: first key of the tree dict, `None` when empty. -/
def get_root : TreeD → Option Pt
  | .nil => none
  | .cons p _ _ => some p

/-- `LineTree._iter_edges`: all grid points (tree nodes) of the tree, in
traversal order (each point, then its children, then the further entries
of the same dict). -/
def iter_edges : TreeD → List Pt
  | .nil => []
  | .cons p c rest => p :: (iter_edges c ++ iter_edges rest)

/-- `LineTree._iter_lines`: all lines of the tree as `(origin, destination)`
pairs; `o` is the internal `__origin` parameter. -/
def iter_lines (o : Option Pt) : TreeD → List (Pt × Pt)
  | .nil => []
  | .cons p c rest =>
    (match o with
     | some a => [(a, p)]
     | none => []) ++ (iter_lines (some p) c ++ iter_lines o rest)

end TreeD

open TreeD

/-- All lines of a tree (Python `self._lines`, via `_iter_lines` with no
origin). -/
def lines (t : TreeD) : List (Pt × Pt) := iter_lines none t

/--
`LineTree._reroot`'s search loop (the `helper` closure): depth-first search
for `new_root`.  On success it returns the list of ancestors of the found
node in root-to-leaf order, each with its (original) children dict, together
with the children dict of the found node.  This makes the mutation performed
by `helper` on the way out of the recursion (`del children[parent_node];
parent_children[node] = children`) explicit: see `invChain`.
-/
def findPath (r : Pt) : TreeD → Option (List (Pt × TreeD) × TreeD)
  | .nil => none
  | .cons p c rest =>
    if p = r then some ([], c)
    else
      match findPath r c with
      | some (anc, ck) => some ((p, c) :: anc, ck)
      | none => findPath r rest

/--
The pointer inversion that `LineTree._reroot`'s `helper` performs while the
recursion unwinds.  `anc` lists the ancestors of the new root deepest-first
(i.e. `findPath`'s ancestor list reversed); `childPt` is the point of the
path child of the first ancestor (initially the new root itself).  Each step
deletes the path child from the ancestor's children (`del
children[parent_node]`) and hangs the ancestor built so far below it
(`parent_children[node] = children`).
-/
def invChain : Pt → List (Pt × TreeD) → Option (Pt × TreeD)
  | _, [] => none
  | childPt, (p, c) :: rest =>
    let c' := eraseK c childPt
    match invChain p rest with
    | none => some (p, c')
    | some (q, qc) => some (p, dictInsert c' q qc)

/-- `LineTree._reroot(tree, new_root)`.  Returns `none` when the Python code
raises (`new_root not found in tree`). -/
def reroot (t : TreeD) (r : Pt) : Option TreeD :=
  match t with
  | .nil => some .nil
  | .cons p _ _ =>
    if r = p then some t
    else
      match findPath r t with
      | none => none
      | some (anc, ck) =>
        match invChain r anc.reverse with
        | none => some (.cons r ck .nil)
        | some (q, qc) => some (.cons r (dictInsert ck q qc) .nil)

/-- Claim C7: re-rooting a non-empty tree to its current root is a no-op:
`_reroot` returns the tree unchanged (the Python code returns the fresh deep
copy untouched, which is equal to the input). -/
theorem reroot_to_current_root_is_noop (t : TreeD) (r : Pt)
    (h : get_root t = some r) : reroot t r = some t := by
  cases t with
  | nil => simp [get_root] at h
  | cons p c rest =>
    simp only [get_root, Option.some.injEq] at h
    simp [reroot, h]

/-- Witness for `reroot_to_current_root_is_noop` at a concrete tree. -/
theorem reroot_to_current_root_is_noop_witness :
    get_root (.cons (0, 0) (.cons (4, 0) .nil .nil) .nil) = some (0, 0) ∧
      reroot (.cons (0, 0) (.cons (4, 0) .nil .nil) .nil) (0, 0) =
        some (.cons (0, 0) (.cons (4, 0) .nil .nil) .nil) :=
  ⟨by decide,
   reroot_to_current_root_is_noop
     (.cons (0, 0) (.cons (4, 0) .nil .nil) .nil) (0, 0) (by decide)⟩

/-- Python indexing of a point tuple with a bool (`origin[index]` where
`index = origin[0] == destination[0]`): `True` selects the y coordinate. -/
def coordAt (p : Pt) (b : Bool) : Int := if b then p.2 else p.1

/-- `index = origin[0] == destination[0]` in `_length_to`: `true` when the
line from `org` to `dest` is vertical. -/
def lineIdx (org dest : Pt) : Bool := decide (org.1 = dest.1)

/-- `length = destination[index] - origin[index]` in `_length_to`. -/
def lineLen (org dest : Pt) : Int :=
  coordAt dest (lineIdx org dest) - coordAt org (lineIdx org dest)

/-- `delta = point[index] - origin[index]` in `_length_to`. -/
def lineDelta (org dest pt : Pt) : Int :=
  coordAt pt (lineIdx org dest) - coordAt org (lineIdx org dest)

/--
`LineTree._length_to`'s inner `iter_lines` closure.  The `found` flag and the
accumulated return value are rendered as an `Option Int`: `none` means the
point was not found in this subtree (the Python return value is then
discarded by the caller), `some d` means the point was found at accumulated
distance `d`.
-/
def length_to_aux (pt : Pt) : TreeD → Option Pt → Option Int
  | .nil, _ => none
  | .cons dest c rest, o =>
    match o with
    | some org =>
      if coordAt pt (!lineIdx org dest) = coordAt org (!lineIdx org dest) ∧
          (0 ≤ lineDelta org dest pt ∧ lineDelta org dest pt ≤ lineLen org dest ∨
            lineLen org dest ≤ lineDelta org dest pt ∧ lineDelta org dest pt ≤ 0)
      then some ((lineDelta org dest pt).natAbs : Int)
      else
        match length_to_aux pt c (some dest) with
        | some r => some (((lineLen org dest).natAbs : Int) + r)
        | none => length_to_aux pt rest o
    | none =>
      match length_to_aux pt c (some dest) with
      | some r => some r
      | none => length_to_aux pt rest none

/-- `LineTree._length_to(point)`: distance from the root of the tree to
`point` along the tree.  `none` when the Python code raises
`"point is not part of tree"`. -/
def length_to (t : TreeD) (pt : Pt) : Option Int := length_to_aux pt t none

/-- Manhattan length between two grid points. -/
def manhattan (a b : Pt) : Int :=
  ((a.1 - b.1).natAbs : Int) + ((a.2 - b.2).natAbs : Int)

/-- `p` lies on the segment from `a` to `b` (inclusive), stated as Manhattan
betweenness; for axis-aligned segments this is exactly segment membership. -/
def on_segment (a b p : Pt) : Bool :=
  decide (manhattan a p + manhattan p b = manhattan a b)

/-- Specification-side walk: the Manhattan path length from the root to
`pt`, following the spec's words (sum of the Manhattan lengths of the tree
segments from the root down to the segment carrying the attachment point,
plus the Manhattan distance travelled on that final segment). -/
def spec_path_length_aux (pt : Pt) : TreeD → Option Pt → Option Int
  | .nil, _ => none
  | .cons dest c rest, o =>
    match o with
    | some org =>
      if on_segment org dest pt then some (manhattan org pt)
      else
        match spec_path_length_aux pt c (some dest) with
        | some r => some (manhattan org dest + r)
        | none => spec_path_length_aux pt rest o
    | none =>
      match spec_path_length_aux pt c (some dest) with
      | some r => some r
      | none => spec_path_length_aux pt rest none

/-- Specification-side Manhattan path length from the root to `pt`. -/
def spec_path_length (t : TreeD) (pt : Pt) : Option Int :=
  spec_path_length_aux pt t none

/-- All segments of a line tree are axis-aligned (invariant of the spec,
maintained by construction in the editor). -/
abbrev axis_aligned (t : TreeD) : Prop :=
  ∀ e ∈ lines t, e.1.1 = e.2.1 ∨ e.1.2 = e.2.2

/-- Per-line equivalence: on an axis-aligned line, `_length_to`'s
coordinate-index membership test agrees with Manhattan betweenness. -/
theorem line_check_iff_on_segment (org dest pt : Pt)
    (hedge : org.1 = dest.1 ∨ org.2 = dest.2) :
    (coordAt pt (!lineIdx org dest) = coordAt org (!lineIdx org dest) ∧
        (0 ≤ lineDelta org dest pt ∧ lineDelta org dest pt ≤ lineLen org dest ∨
          lineLen org dest ≤ lineDelta org dest pt ∧
            lineDelta org dest pt ≤ 0)) ↔
      on_segment org dest pt = true := by
  by_cases h1 : org.1 = dest.1
  · rw [show lineIdx org dest = true from decide_eq_true h1] at *
    simp only [lineDelta, lineLen,
      show lineIdx org dest = true from decide_eq_true h1, coordAt,
      Bool.not_true, Bool.false_eq_true, Bool.true_eq_false, ite_true,
      ite_false, if_true, if_false, on_segment, manhattan, decide_eq_true_eq]
    omega
  · have h2 : org.2 = dest.2 := hedge.resolve_left h1
    simp only [lineDelta, lineLen,
      show lineIdx org dest = false from decide_eq_false h1, coordAt,
      Bool.not_false, Bool.false_eq_true, Bool.true_eq_false, ite_true,
      ite_false, if_true, if_false, on_segment, manhattan, decide_eq_true_eq]
    omega

/-- Per-line value: when the point is on an axis-aligned line, `abs(delta)`
is the Manhattan distance from the origin of the line to the point. -/
theorem line_delta_eq_manhattan (org dest pt : Pt)
    (hedge : org.1 = dest.1 ∨ org.2 = dest.2)
    (hon : on_segment org dest pt = true) :
    ((lineDelta org dest pt).natAbs : Int) = manhattan org pt := by
  by_cases h1 : org.1 = dest.1
  · simp only [lineDelta,
      show lineIdx org dest = true from decide_eq_true h1, coordAt,
      Bool.false_eq_true, ite_true, ite_false]
    simp only [on_segment, manhattan, decide_eq_true_eq] at hon ⊢
    omega
  · have h2 : org.2 = dest.2 := hedge.resolve_left h1
    simp only [lineDelta,
      show lineIdx org dest = false from decide_eq_false h1, coordAt,
      Bool.false_eq_true, ite_true, ite_false]
    simp only [on_segment, manhattan, decide_eq_true_eq] at hon ⊢
    omega

/-- Per-line value: on an axis-aligned line, `abs(length)` is the Manhattan
length of the line. -/
theorem line_len_eq_manhattan (org dest : Pt)
    (hedge : org.1 = dest.1 ∨ org.2 = dest.2) :
    ((lineLen org dest).natAbs : Int) = manhattan org dest := by
  by_cases h1 : org.1 = dest.1
  · simp only [lineLen,
      show lineIdx org dest = true from decide_eq_true h1, coordAt,
      Bool.false_eq_true, ite_true, ite_false]
    simp only [manhattan]
    omega
  · have h2 : org.2 = dest.2 := hedge.resolve_left h1
    simp only [lineLen,
      show lineIdx org dest = false from decide_eq_false h1, coordAt,
      Bool.false_eq_true, ite_true, ite_false]
    simp only [manhattan]
    omega

/-- On an axis-aligned tree, `_length_to`'s coordinate-index walk computes
exactly the spec's Manhattan path length. -/
theorem length_to_aux_eq_spec (pt : Pt) (t : TreeD) :
    ∀ o : Option Pt,
      (∀ e ∈ iter_lines o t, e.1.1 = e.2.1 ∨ e.1.2 = e.2.2) →
      length_to_aux pt t o = spec_path_length_aux pt t o := by
  induction t with
  | nil => intro o _; rfl
  | cons dest c rest ihc ihr =>
    intro o hal
    have hc : ∀ e ∈ iter_lines (some dest) c,
        e.1.1 = e.2.1 ∨ e.1.2 = e.2.2 := by
      intro e he
      exact hal e (by cases o <;> simp [iter_lines, he])
    have hrest : ∀ e ∈ iter_lines o rest,
        e.1.1 = e.2.1 ∨ e.1.2 = e.2.2 := by
      intro e he
      exact hal e (by cases o <;> simp [iter_lines, he])
    cases o with
    | none =>
      simp only [length_to_aux, spec_path_length_aux]
      rw [ihc _ hc, ihr _ hrest]
    | some org =>
      have hedge : org.1 = dest.1 ∨ org.2 = dest.2 :=
        hal (org, dest) (by simp [iter_lines])
      simp only [length_to_aux, spec_path_length_aux]
      by_cases hon : on_segment org dest pt = true
      · rw [if_pos ((line_check_iff_on_segment org dest pt hedge).mpr hon),
          if_pos hon, line_delta_eq_manhattan org dest pt hedge hon]
      · rw [if_neg
            (fun hh => hon ((line_check_iff_on_segment org dest pt hedge).mp hh)),
          if_neg hon, ihc _ hc, ihr _ hrest]
        cases spec_path_length_aux pt c (some dest) with
        | none => rfl
        | some r =>
          simp only [Option.some.injEq]
          rw [line_len_eq_manhattan org dest hedge]

/-- `LineTree._delay_per_gridpoint` (class constant of `linetree.py`). -/
def delay_per_gridpoint : ℚ := 1

/-- The delay that `_update_connections` passes to `interface().connect` for
a sink anchored at `pt` (`linetree.py` lines 221–222):
`_length_to(pt) * _delay_per_gridpoint / grid_spacing`. -/
def connect_delay (t : TreeD) (pt : Pt) (gridSpacing : ℚ) : Option ℚ :=
  (length_to t pt).map (fun L => (L : ℚ) * delay_per_gridpoint / gridSpacing)

/-- Spec-side sink delay `δ(s)`: the Manhattan path length from root to the
sink's attachment point, divided by the grid spacing, times the per-tree
delay-per-gridpoint constant. -/
def spec_delta (t : TreeD) (pt : Pt) (gridSpacing : ℚ) : Option ℚ :=
  (spec_path_length t pt).map
    (fun L => (L : ℚ) / gridSpacing * delay_per_gridpoint)

/-- Claim C1: for every (axis-aligned) line tree and every sink whose anchor
point lies on the tree, the delay passed to `connect` equals the Manhattan
path length along the tree from the root to the sink's attachment point,
divided by the grid spacing, times the tree's delay-per-gridpoint
constant. -/
theorem connect_delay_eq_spec_delta (t : TreeD) (pt : Pt) (g : ℚ)
    (hal : axis_aligned t) : connect_delay t pt g = spec_delta t pt g := by
  unfold connect_delay spec_delta length_to spec_path_length
  rw [length_to_aux_eq_spec pt t none hal]
  apply Option.map_congr
  intro L _
  ring

/-- Witness for `connect_delay_eq_spec_delta`: an L-shaped tree rooted at
the origin, sink anchored mid-segment at `(3, 2)`, grid spacing 1. -/
theorem connect_delay_eq_spec_delta_witness :
    axis_aligned
        (.cons (0, 0) (.cons (3, 0) (.cons (3, 4) .nil .nil) .nil) .nil) ∧
      connect_delay
          (.cons (0, 0) (.cons (3, 0) (.cons (3, 4) .nil .nil) .nil) .nil)
          (3, 2) 1 =
        spec_delta
          (.cons (0, 0) (.cons (3, 0) (.cons (3, 4) .nil .nil) .nil) .nil)
          (3, 2) 1 :=
  ⟨by decide,
   connect_delay_eq_spec_delta
     (.cons (0, 0) (.cons (3, 0) (.cons (3, 4) .nil .nil) .nil) .nil)
     (3, 2) 1 (by decide)⟩

/-- `LogicValue._representation` (`simulation_model.py`): the frozenset
`'01X'` of valid characters, i.e. the three one-character strings. -/
def LogicValue_representation : List String := ["0", "1", "X"]

/-- A constructed `LogicValue` object: its `_value` slot. -/
structure LogicValue where
  val : String
  deriving DecidableEq, Repr

/-- `LogicValue.__init__(value)`: raise `ValueError('Invalid logic value')`
when `value` is not in `_representation`, otherwise store it. -/
def LogicValue_init (value : String) : Except String LogicValue :=
  if value ∉ LogicValue_representation then .error "Invalid logic value"
  else .ok ⟨value⟩

/-- A Python object a `LogicValue` may be compared against with `==`. -/
inductive PyObj where
  | logic (v : LogicValue)
  | intObj (n : Int)
  | strObj (s : String)
  | noneObj
  deriving DecidableEq, Repr

/-- `LogicValue.__eq__`: equal iff the other object is a `LogicValue` with
the same `_value`; `False` for any other object. -/
def LogicValue_eq (a : LogicValue) : PyObj → Bool
  | .logic b => decide (a.val = b.val)
  | _ => false

/-- Claim C10: constructing `LogicValue(v)` raises `ValueError` exactly when
`v` is not one of the characters `'0'`, `'1'`, `'X'`; a successfully
constructed value compares equal to any `LogicValue` constructed from the
same character and unequal to any non-`LogicValue` object. -/
theorem logic_value_init_spec (v : String) :
    (LogicValue_init v = .error "Invalid logic value" ↔
        ¬(v = "0" ∨ v = "1" ∨ v = "X")) ∧
      ∀ l, LogicValue_init v = .ok l →
        (∀ l', LogicValue_init v = .ok l' →
          LogicValue_eq l (.logic l') = true) ∧
        ∀ o : PyObj, (∀ w, o ≠ .logic w) → LogicValue_eq l o = false := by
  constructor
  · unfold LogicValue_init LogicValue_representation
    by_cases h : v = "0" ∨ v = "1" ∨ v = "X"
    · simp [h]
    · have hv : v ∉ ["0", "1", "X"] := by
        simp only [List.mem_cons, List.mem_singleton, List.not_mem_nil,
          or_false]
        exact h
      simp [hv, h]
  · intro l hl
    constructor
    · intro l' hl'
      rw [hl'] at hl
      cases hl
      simp [LogicValue_eq]
    · intro o ho
      cases o with
      | logic w => exact absurd rfl (ho w)
      | intObj n => rfl
      | strObj s => rfl
      | noneObj => rfl

/-- Witness for `logic_value_init_spec` at `v = "1"`, applied to a concrete
successfully constructed value and a concrete non-`LogicValue` object. -/
theorem logic_value_init_spec_witness :
    LogicValue_eq ⟨"1"⟩ (.logic ⟨"1"⟩) = true ∧
      LogicValue_eq ⟨"1"⟩ (.intObj 1) = false :=
  ⟨((logic_value_init_spec "1").2 ⟨"1"⟩ rfl).1 ⟨"1"⟩ rfl,
   ((logic_value_init_spec "1").2 ⟨"1"⟩ rfl).2 (.intObj 1)
     (fun w => by simp)⟩

/-- The fields of a `ConnectorItem` that the "Connect input" loop of
`LineTree._update_connections` inspects. -/
structure ConItem where
  is_input : Bool
  is_registered : Bool
  deriving DecidableEq, Repr

/--
The "Connect input" loop of `LineTree._update_connections` (`linetree.py`
lines 208–215): walk the colliding connector items; for every output
connector that is registered, assert that no driver is connected yet
(`AssertionError: only one output can drive the line-trees` — the
MultipleDrivers rejection), call `con_item.connect(self)` and record the
connector as `self._connected_input`.  `acc` is the current
`_connected_input`; the second component of the result lists the
`connect` calls performed.
-/
def connect_input_phase (cs : List ConItem) (acc : Option ConItem) :
    Except String (Option ConItem) × List ConItem :=
  match cs with
  | [] => (.ok acc, [])
  | con :: rest =>
    if !con.is_input && con.is_registered then
      match acc with
      | some _ => (.error "only one output can drive the line-trees", [])
      | none =>
        let r := connect_input_phase rest (some con)
        (r.1, con :: r.2)
    else connect_input_phase rest acc

/-- A connector item counts as a driver candidate when it is a registered
output. -/
def driving (c : ConItem) : Bool := !c.is_input && c.is_registered

/-- Once a driver is connected, encountering any further registered output
aborts with the assertion error and performs no further `connect` call. -/
theorem connect_input_phase_some_driver (cs : List ConItem) (d : ConItem)
    (h : 1 ≤ (cs.filter driving).length) :
    connect_input_phase cs (some d) =
      (.error "only one output can drive the line-trees", []) := by
  induction cs with
  | nil => simp [List.filter] at h
  | cons con rest ih =>
    by_cases hc : driving con = true
    · simp only [connect_input_phase, driving] at hc ⊢
      rw [hc]
      simp
    · simp only [List.filter, hc] at h
      simp only [connect_input_phase, driving] at hc ⊢
      rw [Bool.not_eq_true] at hc
      rw [hc]
      simp only [Bool.false_eq_true, if_false]
      exact ih h

/-- Claim C5: a line tree has at most one driving output: when an output
connector is already connected as the tree's driver, the attempt to attach a
second registered output connector is rejected (the
`only one output can drive the line-trees` assertion, the spec's
MultipleDrivers error) and no second `connect` call is made — exactly one
connection is established. -/
theorem second_driver_rejected (cs : List ConItem)
    (h : 2 ≤ (cs.filter driving).length) :
    (connect_input_phase cs none).1 =
        .error "only one output can drive the line-trees" ∧
      (connect_input_phase cs none).2.length = 1 := by
  induction cs with
  | nil => simp [List.filter] at h
  | cons con rest ih =>
    by_cases hc : driving con = true
    · simp only [List.filter, hc, List.length_cons] at h
      have h1 : 1 ≤ (rest.filter driving).length := by omega
      simp only [connect_input_phase, driving] at hc ⊢
      rw [hc]
      simp only [if_true]
      rw [connect_input_phase_some_driver rest con h1]
      simp
    · simp only [List.filter, hc] at h
      simp only [connect_input_phase, driving] at hc ⊢
      rw [Bool.not_eq_true] at hc
      rw [hc]
      simp only [Bool.false_eq_true, if_false]
      exact ih h

/-- Witness for `second_driver_rejected`: two registered output connectors
colliding with the tree. -/
theorem second_driver_rejected_witness :
    2 ≤ (List.filter driving
          [ConItem.mk false true, ConItem.mk false true]).length ∧
      (connect_input_phase [ConItem.mk false true, ConItem.mk false true]
            none).1 =
          .error "only one output can drive the line-trees" ∧
        (connect_input_phase [ConItem.mk false true, ConItem.mk false true]
              none).2.length = 1 :=
  ⟨by decide,
   second_driver_rejected [ConItem.mk false true, ConItem.mk false true]
     (by decide)⟩

/-- Modelled from the spec: the collision-rectangle containment test
`rect.contains(point)` of `_split_line_of_tree` relies on
`ItemBase._line_to_col_rect`, defined in `itembase.py`, which is not among
the sources.  Per the spec, splitting "Requires `p` to lie strictly between
`a` and `b` on the edge". -/
def strictly_between (a b p : Pt) : Bool :=
  on_segment a b p && decide (p ≠ a) && decide (p ≠ b)

/-- The inner `for child in children` loop of `_split_line_of_tree.helper`:
find the first child whose line from `node` contains `point`, returning the
child and its children dict. -/
def findSplitChild (node pt : Pt) : TreeD → Option (Pt × TreeD)
  | .nil => none
  | .cons ch csub crest =>
    if strictly_between node ch pt then some (ch, csub)
    else findSplitChild node pt crest

/-- The mutation `_split_line_of_tree.helper` performs on the children dict
once the containing line is found: `children[point] = {child:
children[child]}; del children[child]`. -/
def splitAt (c : TreeD) (pt child : Pt) (csub : TreeD) : TreeD :=
  eraseK (dictInsert c pt (.cons child csub .nil)) child

/-- `_split_line_of_tree.helper`: for every entry of the dict, first scan
the lines to its children (splitting at the first hit), then recurse into
the children dict, then continue with the remaining entries.  `none` means
`ItemFound` was never raised, so `_split_line_of_tree` raises
`"Point not found in tree"`. -/
def split_helper (pt : Pt) : TreeD → Option TreeD
  | .nil => none
  | .cons n c rest =>
    match findSplitChild n pt c with
    | some (ch, csub) => some (.cons n (splitAt c pt ch csub) rest)
    | none =>
      match split_helper pt c with
      | some c' => some (.cons n c' rest)
      | none =>
        match split_helper pt rest with
        | some rest' => some (.cons n c rest')
        | none => none

/-- `LineTree._split_line_of_tree(tree, point)`. -/
def split_line_of_tree (t : TreeD) (pt : Pt) : Option TreeD :=
  split_helper pt t

/-- `LineTree._merge_root_lines_of_tree`: when the root has exactly two
children and the three points share an axis, hang the second child below the
first and make the first child the new root.  `none` models the final
`assert len(tree) == 1` failing (or `list(tree)[0]` on an empty dict). -/
def merge_root_lines_of_tree (t : TreeD) : Option TreeD :=
  match t with
  | .nil => none
  | .cons b cb rest =>
    match (match cb with
      | .cons a ac (.cons c cc .nil) =>
        if (a.1 = b.1 ∧ b.1 = c.1) ∨ (a.2 = b.2 ∧ b.2 = c.2)
        then TreeD.cons a (dictInsert ac c cc) .nil
        else TreeD.cons b cb rest
      | _ => TreeD.cons b cb rest) with
    | t2 => if lenTop t2 = 1 then some t2 else none

/-- Modelled from the spec: `LineTree.contains` is a `QGraphicsItem` method
working on the collision shape built in `itembase.py`, which is not among
the sources.  Per the spec, a point is shared between trees when it lies on
a segment of the tree, so containment is membership of one of the tree's
segments (endpoints included). -/
def tree_contains (t : TreeD) (p : Pt) : Bool :=
  (lines t).any fun e => on_segment e.1 e.2 p

/-- The collision-point set `merge_tree` collects: every node of either
tree that the other tree contains (`set(...)`; the list is deduplicated,
keeping first occurrences). -/
def col_points (t1 t2 : TreeD) : List Pt :=
  ((iter_edges t1).filter (fun e => tree_contains t2 e) ++
    (iter_edges t2).filter (fun e => tree_contains t1 e)).dedup

/-- The exceptions `LineTree.merge_tree` can raise. -/
inductive MergeErr where
  /-- `"Cannot merge trees"` — the spec's AmbiguousMerge. -/
  | cannotMerge
  /-- `col_points.pop()` on an empty set, or a dict lookup miss. -/
  | keyError
  /-- `_split_line_of_tree` raised `"Point not found in tree"`. -/
  | pointNotFound
  /-- `_reroot` raised `"new_root not found in tree"`. -/
  | rootNotFound
  /-- `assert len(tree) == 1` in `_merge_root_lines_of_tree` failed. -/
  | assertFail
  deriving DecidableEq, Repr

/-- `LineTree.merge_tree(self, merge_line_tree)` on the stored tree dicts:
collect the collision points, reject more than one, split either tree at
the collision point when it is not yet one of its nodes, re-root both trees
to it, union the children of the two roots (`new_tree[col_point].update(
re_merge_tree[col_point])`) and fuse collinear root lines. -/
def merge_tree (t1 t2 : TreeD) : Except MergeErr TreeD :=
  if 1 < (col_points t1 t2).length then .error .cannotMerge
  else
    match col_points t1 t2 with
    | [] => .error .keyError
    | cp :: _ =>
      match (if cp ∈ iter_edges t1 then some t1 else split_line_of_tree t1 cp),
          (if cp ∈ iter_edges t2 then some t2 else split_line_of_tree t2 cp) with
      | some a, some b =>
        match reroot a cp, reroot b cp with
        | some ra, some rb =>
          match lookupD ra cp, lookupD rb cp with
          | some ca, some cb =>
            match merge_root_lines_of_tree
                (dictInsert ra cp (dictUpdate ca cb)) with
            | some t' => .ok t'
            | none => .error .assertFail
          | _, _ => .error .keyError
        | _, _ => .error .rootNotFound
      | _, _ => .error .pointNotFound

/-- `merge_tree` as a transition of the stored scene state (the tree dicts
of the two line trees): every intermediate step of `merge_tree` works on
deep copies, and only the final `_set_tree(simplified_tree)` assigns to
`self._tree`; on an exception nothing is assigned. -/
def merge_tree_apply (t1 t2 : TreeD) :
    (TreeD × TreeD) × Except MergeErr Unit :=
  match merge_tree t1 t2 with
  | .error e => ((t1, t2), .error e)
  | .ok t' => ((t', t2), .ok ())

/-- Claim C6: for every two line trees sharing more than one grid point,
`merge_tree` fails with the `"Cannot merge trees"` error (the spec's
AmbiguousMerge) and the stored topology of both trees is left unchanged. -/
theorem ambiguous_merge_rejected (t1 t2 : TreeD)
    (h : 1 < (col_points t1 t2).length) :
    merge_tree t1 t2 = .error .cannotMerge ∧
      merge_tree_apply t1 t2 = ((t1, t2), .error .cannotMerge) := by
  have hm : merge_tree t1 t2 = .error .cannotMerge := by
    unfold merge_tree
    rw [if_pos h]
  exact ⟨hm, by unfold merge_tree_apply; rw [hm]⟩

/-- Witness for `ambiguous_merge_rejected`: two copies of the same segment
share both endpoints. -/
theorem ambiguous_merge_rejected_witness :
    1 < (col_points (.cons (0, 0) (.cons (2, 0) .nil .nil) .nil)
          (.cons (0, 0) (.cons (2, 0) .nil .nil) .nil)).length ∧
      merge_tree (.cons (0, 0) (.cons (2, 0) .nil .nil) .nil)
          (.cons (0, 0) (.cons (2, 0) .nil .nil) .nil) =
        .error .cannotMerge ∧
      merge_tree_apply (.cons (0, 0) (.cons (2, 0) .nil .nil) .nil)
          (.cons (0, 0) (.cons (2, 0) .nil .nil) .nil) =
        ((.cons (0, 0) (.cons (2, 0) .nil .nil) .nil,
          .cons (0, 0) (.cons (2, 0) .nil .nil) .nil),
          .error .cannotMerge) :=
  ⟨by decide,
   ambiguous_merge_rejected _ _ (by decide)⟩

/--
`LineTree._reroot_to_possible_input` for a given candidate driver anchor
(the anchor point of the first colliding registered output connector, if
any; the scene query for colliding connectors lies outside the tree model).
When the anchor differs from the current root, the tree is split at the
anchor unless the anchor is already one of its nodes, and then re-rooted to
the anchor; no other transformation is applied.  `none` renders the
exceptions of `_split_line_of_tree` / `_reroot`.
-/
def reroot_to_possible_input (t : TreeD) (anchor : Option Pt) :
    Option TreeD :=
  match anchor with
  | none => some t
  | some a =>
    if get_root t = some a then some t
    else
      match (if a ∈ iter_edges t then some t else split_line_of_tree t a) with
      | none => none
      | some t' => reroot t' a

/-- Any successful `_reroot` of a non-empty tree yields a tree whose first
(and only) root key is the requested new root. -/
theorem reroot_root (t : TreeD) (r : Pt) (t' : TreeD)
    (hn : t ≠ .nil) (h : reroot t r = some t') : get_root t' = some r := by
  cases t with
  | nil => exact absurd rfl hn
  | cons p c rest =>
    simp only [reroot] at h
    by_cases hr : r = p
    · rw [if_pos hr] at h
      cases h
      simp [get_root, hr]
    · rw [if_neg hr] at h
      cases hfp : findPath r (TreeD.cons p c rest) with
      | none => rw [hfp] at h; cases h
      | some v =>
        obtain ⟨anc, ck⟩ := v
        rw [hfp] at h
        dsimp only at h
        cases hic : invChain r anc.reverse with
        | none => rw [hic] at h; dsimp only at h; cases h; rfl
        | some w =>
          obtain ⟨q, qc⟩ := w
          rw [hic] at h
          dsimp only at h
          cases h
          rfl

/-- A successful `_split_line_of_tree` never returns an empty dict. -/
theorem split_helper_ne_nil (pt : Pt) (t t' : TreeD)
    (h : split_helper pt t = some t') : t' ≠ .nil := by
  cases t with
  | nil => cases h
  | cons n c rest =>
    unfold split_helper at h
    cases hf : findSplitChild n pt c with
    | some v =>
      obtain ⟨ch, csub⟩ := v
      rw [hf] at h
      cases h
      simp
    | none =>
      rw [hf] at h
      cases hc : split_helper pt c with
      | some c' => rw [hc] at h; cases h; simp
      | none =>
        rw [hc] at h
        cases hr : split_helper pt rest with
        | some rest' => rw [hr] at h; cases h; simp
        | none => rw [hr] at h; cases h

/-- Claim C4 (counterexample): re-rooting the straight tree
`{(0,0): {(4,0): {}}}` to a driver anchored mid-segment at `(2,0)` yields a
root with two outgoing segments to `(4,0)` and `(0,0)` — all three points
share the axis `y = 0`, yet the two collinear segments are left as two
segments (`_reroot_to_possible_input` never calls
`_merge_root_lines_of_tree`), contradicting the claim that every collinear
pair at the new root is merged into a single segment. -/
theorem reroot_to_input_keeps_collinear_pair :
    reroot_to_possible_input (.cons (0, 0) (.cons (4, 0) .nil .nil) .nil)
        (some (2, 0)) =
      some (.cons (2, 0)
        (.cons (4, 0) .nil (.cons (0, 0) .nil .nil)) .nil) ∧
      lines (.cons (2, 0) (.cons (4, 0) .nil (.cons (0, 0) .nil .nil)) .nil) =
        [((2, 0), (4, 0)), ((2, 0), (0, 0))] ∧
      ((4, 0) : Pt).2 = ((2, 0) : Pt).2 ∧ ((2, 0) : Pt).2 = ((0, 0) : Pt).2 := by
  decide

/-- Claim C4 (amended): after `_reroot_to_possible_input` re-roots a tree to
a driver's attachment point, the attachment point is the root of the
resulting tree; outgoing segments at the new root are left as they are (no
collinear pair is merged — merging happens only in `merge_tree`). -/
theorem reroot_to_input_root_is_anchor (t : TreeD) (a : Pt) (t' : TreeD)
    (h : reroot_to_possible_input t (some a) = some t') :
    get_root t' = some a := by
  simp only [reroot_to_possible_input] at h
  by_cases hr : get_root t = some a
  · rw [if_pos hr] at h
    cases h
    exact hr
  · rw [if_neg hr] at h
    by_cases hm : a ∈ iter_edges t
    · rw [if_pos hm] at h
      have hn : t ≠ .nil := by
        intro he
        rw [he] at hm
        simp [iter_edges] at hm
      exact reroot_root t a t' hn h
    · rw [if_neg hm] at h
      cases hs : split_line_of_tree t a with
      | none => rw [hs] at h; cases h
      | some ts =>
        rw [hs] at h
        exact reroot_root ts a t' (split_helper_ne_nil a t ts hs) h

/-- Witness for `reroot_to_input_root_is_anchor` at the counterexample
tree. -/
theorem reroot_to_input_root_is_anchor_witness :
    get_root (.cons (2, 0) (.cons (4, 0) .nil (.cons (0, 0) .nil .nil)) .nil)
      = some (2, 0) :=
  reroot_to_input_root_is_anchor
    (.cons (0, 0) (.cons (4, 0) .nil .nil) .nil) (2, 0)
    (.cons (2, 0) (.cons (4, 0) .nil (.cons (0, 0) .nil .nil)) .nil)
    (by decide)

/-- A metadata mapping: a string-keyed dict in insertion order.  The
mechanics of `InsertableItem.update` touch only the numeric `'x'`/`'y'`
entries, so values are modelled as exact rationals (scene coordinates). -/
abbrev Meta := List (String × ℚ)

/-- Dict lookup on metadata (first entry with the key). -/
def mlookup : Meta → String → Option ℚ
  | [], _ => none
  | (k', v) :: rest, k => if k' = k then some v else mlookup rest k

/-- Dict assignment `d[k] = v`: overwrite in place or append. -/
def minsert : Meta → String → ℚ → Meta
  | [], k, v => [(k, v)]
  | (k', v') :: rest, k, v =>
    if k' = k then (k', v) :: rest else (k', v') :: minsert rest k v

/-- `a.update(b)` on metadata dicts: assign every entry of `b` in order. -/
def mupdate (a : Meta) : Meta → Meta
  | [] => a
  | (k, v) :: rest => mupdate (minsert a k v) rest

/-- `'k' in metadata`. -/
def mhas (m : Meta) (k : String) : Bool := (mlookup m k).isSome

theorem mlookup_minsert_self (d : Meta) (k : String) (v : ℚ) :
    mlookup (minsert d k v) k = some v := by
  induction d with
  | nil => simp [minsert, mlookup]
  | cons e rest ih =>
    obtain ⟨k', v'⟩ := e
    by_cases h : k' = k
    · simp [minsert, mlookup, h]
    · simp [minsert, mlookup, h, ih]

theorem mlookup_minsert_ne (d : Meta) (k k' : String) (v : ℚ)
    (h : k' ≠ k) : mlookup (minsert d k v) k' = mlookup d k' := by
  induction d with
  | nil => simp [minsert, mlookup, Ne.symm h]
  | cons e rest ih =>
    obtain ⟨k0, v0⟩ := e
    by_cases h0 : k0 = k
    · subst h0
      simp [minsert, mlookup, Ne.symm h]
    · simp only [minsert, h0, if_false]
      by_cases h1 : k0 = k'
      · simp [mlookup, h1]
      · simp [mlookup, h1, ih]

theorem minsert_of_mlookup_eq (d : Meta) (k : String) (v : ℚ)
    (h : mlookup d k = some v) : minsert d k v = d := by
  induction d with
  | nil => simp [mlookup] at h
  | cons e rest ih =>
    obtain ⟨k0, v0⟩ := e
    by_cases h0 : k0 = k
    · simp only [mlookup, h0, if_true, Option.some.injEq] at h
      simp [minsert, h0, h]
    · simp only [mlookup, h0, if_false] at h
      simp [minsert, h0, ih h]

theorem mlookup_mupdate_not_mem (m : Meta) (d : Meta) (k : String)
    (h : k ∉ m.map Prod.fst) : mlookup (mupdate d m) k = mlookup d k := by
  induction m generalizing d with
  | nil => rfl
  | cons e rest ih =>
    obtain ⟨k0, v0⟩ := e
    simp only [List.map, List.mem_cons, not_or] at h
    rw [show mupdate d ((k0, v0) :: rest) = mupdate (minsert d k0 v0) rest
        from rfl]
    rw [ih _ h.2, mlookup_minsert_ne _ _ _ _ h.1]

theorem mlookup_mupdate_mem (m : Meta) (d : Meta) (k : String) (v : ℚ)
    (hnd : (m.map Prod.fst).Nodup) (hm : (k, v) ∈ m) :
    mlookup (mupdate d m) k = some v := by
  induction m generalizing d with
  | nil => cases hm
  | cons e rest ih =>
    obtain ⟨k0, v0⟩ := e
    simp only [List.map, List.nodup_cons] at hnd
    rw [show mupdate d ((k0, v0) :: rest) = mupdate (minsert d k0 v0) rest
        from rfl]
    rcases List.mem_cons.mp hm with he | hrest
    · cases he
      rw [mlookup_mupdate_not_mem _ _ _ hnd.1, mlookup_minsert_self]
    · exact ih _ hnd.2 hrest

theorem mupdate_no_op (m : Meta) (d : Meta)
    (h : ∀ p ∈ m, mlookup d p.1 = some p.2) : mupdate d m = d := by
  induction m with
  | nil => rfl
  | cons e rest ih =>
    obtain ⟨k0, v0⟩ := e
    rw [show mupdate d ((k0, v0) :: rest) = mupdate (minsert d k0 v0) rest
        from rfl]
    rw [minsert_of_mlookup_eq _ _ _ (h (k0, v0) (List.mem_cons_self _ _))]
    exact ih fun p hp => h p (List.mem_cons_of_mem _ hp)

theorem mupdate_mupdate_self (m : Meta) (c : Meta)
    (hnd : (m.map Prod.fst).Nodup) :
    mupdate (mupdate c m) m = mupdate c m :=
  mupdate_no_op m _ fun p hp => mlookup_mupdate_mem m c p.1 p.2 hnd hp

theorem mlookup_eq_of_mem_nodup (m : Meta) (k : String) (v : ℚ)
    (hnd : (m.map Prod.fst).Nodup) (hm : (k, v) ∈ m) :
    mlookup m k = some v := by
  induction m with
  | nil => cases hm
  | cons e rest ih =>
    obtain ⟨k0, v0⟩ := e
    simp only [List.map, List.nodup_cons] at hnd
    rcases List.mem_cons.mp hm with he | hrest
    · cases he; simp [mlookup]
    · have hne : k0 ≠ k := by
        intro hk
        exact hnd.1 (hk ▸ List.mem_map_of_mem Prod.fst hrest)
      simp only [mlookup, hne, if_false]
      exact ih hnd.2 hrest

/-- `GridScene.get_grid_spacing()` (`grid_scene.py`). -/
def get_grid_spacing : ℚ := 100

/-- Qt's `qRound` as used by `QPointF.toPoint()`: round half away from
zero (truncate `x + 0.5` toward zero, `x - 0.5` for negative `x`). -/
def qRound (x : ℚ) : Int := if 0 ≤ x then ⌊x + 1 / 2⌋ else ⌈x - 1 / 2⌉

/-- `GridScene.roundToGrid` on one coordinate:
`(pos / spacing).toPoint() * spacing`. -/
def roundToGrid (x : ℚ) : ℚ :=
  (qRound (x / get_grid_spacing) : ℚ) * get_grid_spacing

/-- The state of an `InsertableItem` that claim C8 speaks about:
`_cached_metadata`, the graphics position, and `_last_position` (which
guards the backend/metadata notification of position changes). -/
structure ItemState where
  cached : Meta
  pos : ℚ × ℚ
  last : Option (ℚ × ℚ)
  deriving DecidableEq, Repr

/-- `InsertableItem._on_item_position_has_changed(new_pos)`: return
immediately when the position equals `_last_position`; otherwise
`_notify_backend({'x': .., 'y': ..})` — whose first line always merges the
notified coordinates into `_cached_metadata` — and remember the position. -/
def on_item_position_has_changed (s : ItemState) (np : ℚ × ℚ) : ItemState :=
  if some np = s.last then s
  else { cached := mupdate s.cached [("x", np.1), ("y", np.2)],
         pos := s.pos, last := some np }

/-- `InsertableItem.setPos`: `QGraphicsItem.setPos` returns early when the
requested position equals the current one; otherwise
`itemChange(ItemPositionChange)` rounds the value to the grid when the item
is in a scene, the position is assigned, and
`_on_item_position_has_changed` runs with the resulting position (the
direct call in the override and the one from
`itemChange(ItemPositionHasChanged)` collapse to one thanks to the
`_last_position` guard). -/
def item_setPos (hasScene : Bool) (s : ItemState) (p : ℚ × ℚ) : ItemState :=
  if p = s.pos then on_item_position_has_changed s s.pos
  else
    let p' := if hasScene then (roundToGrid p.1, roundToGrid p.2) else p
    on_item_position_has_changed { s with pos := p' } p'

/-- `InsertableItem.apply_update(metadata)`: reposition when an `'x'` or a
`'y'` entry is present, each missing coordinate defaulting to the current
position. -/
def apply_update (hasScene : Bool) (s : ItemState) (m : Meta) : ItemState :=
  if mhas m "x" || mhas m "y" then
    item_setPos hasScene s
      ((mlookup m "x").getD s.pos.1, (mlookup m "y").getD s.pos.2)
  else s

/-- `InsertableItem.update(metadata)`: merge the metadata into
`_cached_metadata`, then run `apply_update` (with `_in_metadata_update`
set, which only suppresses the send to the backend, not the local merge in
`_notify_backend`). -/
def item_update (hasScene : Bool) (s : ItemState) (m : Meta) : ItemState :=
  apply_update hasScene { s with cached := mupdate s.cached m } m

/-- Claim C8 (counterexample): with the item in a scene (grid spacing 100),
updating with `{'x': 160}` twice does not equal updating once: the first
update rounds the position to `x = 200` and `_notify_backend` overwrites
the cached `'x'` with `200`, while the second update rewrites the cached
`'x'` back to the raw `160` and the position-change notification is skipped
(the rounded position no longer changes). -/
theorem item_update_not_idempotent :
    item_update true
        (item_update true ⟨[], (0, 0), some (0, 0)⟩ [("x", 160)])
        [("x", 160)] ≠
      item_update true ⟨[], (0, 0), some (0, 0)⟩ [("x", 160)] := by
  have h1 : item_update true ⟨[], (0, 0), some (0, 0)⟩ [("x", 160)] =
      ⟨[("x", 200), ("y", 0)], (200, 0), some (200, 0)⟩ := by
    unfold item_update apply_update item_setPos on_item_position_has_changed
    norm_num [mhas, mlookup, mupdate, minsert, roundToGrid, qRound,
      get_grid_spacing, show ("x" : String) ≠ "y" from by decide,
      show ("y" : String) ≠ "x" from by decide]
  rw [h1]
  have h2 : item_update true
      ⟨[("x", 200), ("y", 0)], (200, 0), some (200, 0)⟩ [("x", 160)] =
      ⟨[("x", 160), ("y", 0)], (200, 0), some (200, 0)⟩ := by
    unfold item_update apply_update item_setPos on_item_position_has_changed
    norm_num [mhas, mlookup, mupdate, minsert, roundToGrid, qRound,
      get_grid_spacing, show ("x" : String) ≠ "y" from by decide,
      show ("y" : String) ≠ "x" from by decide]
  rw [h2]
  intro h
  have := congrArg ItemState.cached h
  norm_num at this

/-- Claim C8 (amended): applying `update(m)` twice in a row leaves the item
in the same state (cached metadata and position) as applying it once,
provided the keys of `m` are unique (a Python dict) and — when the item is
in a scene — the target position determined by `m` (its `'x'`/`'y'`
entries, defaulting to the current position) is a fixed point of
`roundToGrid`. -/
theorem item_update_idempotent_aligned (hasScene : Bool) (s : ItemState)
    (m : Meta) (hnd : (m.map Prod.fst).Nodup)
    (hround : hasScene = true →
      roundToGrid ((mlookup m "x").getD s.pos.1) =
          (mlookup m "x").getD s.pos.1 ∧
        roundToGrid ((mlookup m "y").getD s.pos.2) =
          (mlookup m "y").getD s.pos.2) :
    item_update hasScene (item_update hasScene s m) m =
      item_update hasScene s m := by
  by_cases hxy : (mhas m "x" || mhas m "y") = true
  · -- the update repositions the item
    set tx := (mlookup m "x").getD s.pos.1 with htx
    set ty := (mlookup m "y").getD s.pos.2 with hty
    set c1 := mupdate s.cached m with hc1
    -- the first update:
    have h1 : item_update hasScene s m =
        on_item_position_has_changed
          { cached := c1, pos := (tx, ty), last := s.last } (tx, ty) := by
      unfold item_update apply_update
      rw [if_pos hxy]
      unfold item_setPos
      by_cases hp : ((tx, ty) : ℚ × ℚ) = s.pos
      · rw [if_pos hp, hp]
      · rw [if_neg hp]
        cases hasScene with
        | false => rfl
        | true =>
          obtain ⟨hrx, hry⟩ := hround rfl
          simp [hrx, hry]
    -- the state after the first update
    obtain ⟨c1', hcc, hs1⟩ :
        ∃ c1', (mupdate c1' m = c1') ∧
          item_update hasScene s m =
            { cached := c1', pos := (tx, ty), last := some (tx, ty) } := by
      rw [h1]
      unfold on_item_position_has_changed
      by_cases hl : some ((tx, ty) : ℚ × ℚ) = s.last
      · refine ⟨c1, mupdate_mupdate_self m s.cached hnd, ?_⟩
        rw [if_pos hl, ← hl]
      · refine ⟨mupdate c1 [("x", tx), ("y", ty)], ?_, by rw [if_neg hl]⟩
        apply mupdate_no_op
        intro p hp
        rw [show mupdate c1 [("x", tx), ("y", ty)] =
            minsert (minsert c1 "x" tx) "y" ty from rfl]
        by_cases hky : p.1 = "y"
        · rw [hky, mlookup_minsert_self]
          have hy : mlookup m "y" = some p.2 := by
            rw [← hky]
            exact mlookup_eq_of_mem_nodup m p.1 p.2 hnd hp
          rw [hty, hy]
          rfl
        · rw [mlookup_minsert_ne _ _ _ _ hky]
          by_cases hkx : p.1 = "x"
          · rw [hkx, mlookup_minsert_self]
            have hx : mlookup m "x" = some p.2 := by
              rw [← hkx]
              exact mlookup_eq_of_mem_nodup m p.1 p.2 hnd hp
            rw [htx, hx]
            rfl
          · rw [mlookup_minsert_ne _ _ _ _ hkx]
            exact mlookup_mupdate_mem m s.cached p.1 p.2 hnd hp
    -- the second update leaves that state unchanged
    have htx2 : (mlookup m "x").getD tx = tx := by
      rw [htx]
      cases mlookup m "x" <;> rfl
    have hty2 : (mlookup m "y").getD ty = ty := by
      rw [hty]
      cases mlookup m "y" <;> rfl
    rw [hs1]
    show apply_update hasScene
        { cached := mupdate c1' m, pos := (tx, ty), last := some (tx, ty) } m =
      { cached := c1', pos := (tx, ty), last := some (tx, ty) }
    rw [hcc]
    unfold apply_update
    rw [if_pos hxy]
    show item_setPos hasScene
        { cached := c1', pos := (tx, ty), last := some (tx, ty) }
        ((mlookup m "x").getD tx, (mlookup m "y").getD ty) =
      { cached := c1', pos := (tx, ty), last := some (tx, ty) }
    rw [htx2, hty2]
    unfold item_setPos
    rw [if_pos rfl]
    unfold on_item_position_has_changed
    rw [if_pos rfl]
  · -- no 'x'/'y' entry: only the cached metadata is merged
    unfold item_update apply_update
    rw [if_neg hxy, if_neg hxy]
    simp only
    rw [mupdate_mupdate_self m s.cached hnd]

/-- Witness for `item_update_idempotent_aligned`: grid-aligned `'x'`
update. -/
theorem item_update_idempotent_aligned_witness :
    item_update true
        (item_update true ⟨[], (0, 0), some (0, 0)⟩ [("x", 200)])
        [("x", 200)] =
      item_update true ⟨[], (0, 0), some (0, 0)⟩ [("x", 200)] :=
  item_update_idempotent_aligned true ⟨[], (0, 0), some (0, 0)⟩
    [("x", 200)] (by decide)
    (fun _ => by
      constructor <;>
        norm_num [mlookup, roundToGrid, qRound, get_grid_spacing,
          show ("x" : String) ≠ "y" from by decide])

/-- The multiset of grid points (tree nodes) of a tree dict; the multiset
view of `_iter_edges`. -/
def pointsM : TreeD → Multiset Pt
  | .nil => 0
  | .cons p c rest => {p} + pointsM c + pointsM rest

theorem pointsM_eq_iter_edges (t : TreeD) :
    pointsM t = (iter_edges t : Multiset Pt) := by
  induction t with
  | nil => rfl
  | cons p c rest ihc ihr =>
    simp only [pointsM, iter_edges, ihc, ihr]
    rw [← Multiset.cons_coe, ← Multiset.coe_add, add_assoc,
      Multiset.singleton_add]

/-- A total order used only to normalise the orientation of an edge. -/
def pairLe (a b : Pt) : Bool :=
  decide (a.1 < b.1 ∨ (a.1 = b.1 ∧ a.2 ≤ b.2))

/-- The undirected rendering of a line: both orientations are mapped to the
same normalised pair. -/
def uedge (a b : Pt) : Pt × Pt := if pairLe a b then (a, b) else (b, a)

theorem uedge_comm (a b : Pt) : uedge a b = uedge b a := by
  obtain ⟨a1, a2⟩ := a
  obtain ⟨b1, b2⟩ := b
  unfold uedge pairLe
  by_cases h1 : ((a1, a2) : Pt).1 < ((b1, b2) : Pt).1 ∨
      (((a1, a2) : Pt).1 = ((b1, b2) : Pt).1 ∧ ((a1, a2) : Pt).2 ≤ ((b1, b2) : Pt).2)
  · by_cases h2 : ((b1, b2) : Pt).1 < ((a1, a2) : Pt).1 ∨
        (((b1, b2) : Pt).1 = ((a1, a2) : Pt).1 ∧ ((b1, b2) : Pt).2 ≤ ((a1, a2) : Pt).2)
    · simp only at h1 h2
      have ha : a1 = b1 ∧ a2 = b2 := by omega
      simp [decide_eq_true h1, decide_eq_true h2, ha.1, ha.2]
    · simp [decide_eq_true h1, decide_eq_false h2]
  · by_cases h2 : ((b1, b2) : Pt).1 < ((a1, a2) : Pt).1 ∨
        (((b1, b2) : Pt).1 = ((a1, a2) : Pt).1 ∧ ((b1, b2) : Pt).2 ≤ ((a1, a2) : Pt).2)
    · simp [decide_eq_false h1, decide_eq_true h2]
    · simp only at h1 h2
      omega

/-- The multiset of undirected lines of a tree dict below an optional
origin; the undirected multiset view of `_iter_lines`. -/
def uedges : Option Pt → TreeD → Multiset (Pt × Pt)
  | _, .nil => 0
  | o, .cons p c rest =>
    (match o with
     | some a => ({uedge a p} : Multiset (Pt × Pt))
     | none => 0) + uedges (some p) c + uedges o rest

theorem uedges_eq_iter_lines (t : TreeD) : ∀ o : Option Pt,
    uedges o t =
      (↑((iter_lines o t).map (fun e => uedge e.1 e.2)) :
        Multiset (Pt × Pt)) := by
  induction t with
  | nil => intro o; cases o <;> simp [uedges, iter_lines]
  | cons p c rest ihc ihr =>
    intro o
    cases o with
    | none => simp [uedges, iter_lines, ihc, ihr]
    | some a => simp [uedges, iter_lines, ihc, ihr, Multiset.singleton_add]

theorem lookup_points (d : TreeD) (p : Pt) (c : TreeD)
    (h : lookupD d p = some c) :
    pointsM d = {p} + pointsM c + pointsM (eraseK d p) := by
  induction d with
  | nil => cases h
  | cons q cq rest ihc ihr =>
    by_cases hq : q = p
    · rw [show lookupD (TreeD.cons q cq rest) p = some cq by
        simp [lookupD, hq]] at h
      cases h
      simp only [pointsM, eraseK, hq, eq_self_iff_true, if_true]
    · rw [show lookupD (TreeD.cons q cq rest) p = lookupD rest p by
        simp [lookupD, hq]] at h
      rw [show eraseK (TreeD.cons q cq rest) p =
          TreeD.cons q cq (eraseK rest p) by simp [eraseK, hq]]
      simp only [pointsM, ihr h]
      abel

theorem lookup_uedges (d : TreeD) (p : Pt) (c : TreeD) (a : Pt)
    (h : lookupD d p = some c) :
    uedges (some a) d =
      {uedge a p} + uedges (some p) c + uedges (some a) (eraseK d p) := by
  induction d with
  | nil => cases h
  | cons q cq rest ihc ihr =>
    by_cases hq : q = p
    · rw [show lookupD (TreeD.cons q cq rest) p = some cq by
        simp [lookupD, hq]] at h
      cases h
      simp only [uedges, eraseK, hq, eq_self_iff_true, if_true]
    · rw [show lookupD (TreeD.cons q cq rest) p = lookupD rest p by
        simp [lookupD, hq]] at h
      rw [show eraseK (TreeD.cons q cq rest) p =
          TreeD.cons q cq (eraseK rest p) by simp [eraseK, hq]]
      simp only [uedges, ihr h]
      abel

theorem insert_points (d : TreeD) (q : Pt) (v : TreeD)
    (h : lookupD d q = none) :
    pointsM (dictInsert d q v) = pointsM d + ({q} + pointsM v) := by
  induction d with
  | nil => simp [dictInsert, pointsM]
  | cons p c rest ihc ihr =>
    by_cases hp : p = q
    · simp [lookupD, hp] at h
    · rw [show lookupD (TreeD.cons p c rest) q = lookupD rest q by
        simp [lookupD, hp]] at h
      rw [show dictInsert (TreeD.cons p c rest) q v =
          TreeD.cons p c (dictInsert rest q v) by simp [dictInsert, hp]]
      simp only [pointsM, ihr h]
      abel

theorem insert_uedges (d : TreeD) (q : Pt) (v : TreeD) (a : Pt)
    (h : lookupD d q = none) :
    uedges (some a) (dictInsert d q v) =
      uedges (some a) d + ({uedge a q} + uedges (some q) v) := by
  induction d with
  | nil => simp [dictInsert, uedges]
  | cons p c rest ihc ihr =>
    by_cases hp : p = q
    · simp [lookupD, hp] at h
    · rw [show lookupD (TreeD.cons p c rest) q = lookupD rest q by
        simp [lookupD, hp]] at h
      rw [show dictInsert (TreeD.cons p c rest) q v =
          TreeD.cons p c (dictInsert rest q v) by simp [dictInsert, hp]]
      simp only [uedges, ihr h]
      abel

theorem lookup_mem_points (d : TreeD) (q : Pt) (z : TreeD)
    (h : lookupD d q = some z) : q ∈ pointsM d := by
  induction d with
  | nil => cases h
  | cons p c rest ihc ihr =>
    by_cases hp : p = q
    · simp [pointsM, hp]
    · rw [show lookupD (TreeD.cons p c rest) q = lookupD rest q by
        simp [lookupD, hp]] at h
      simp only [pointsM, Multiset.mem_add]
      exact Or.inr (ihr h)

theorem pointsM_le_of_lookup (d : TreeD) (p : Pt) (c : TreeD)
    (h : lookupD d p = some c) : {p} + pointsM c ≤ pointsM d := by
  rw [lookup_points d p c h]
  exact self_le_add_right _ _

theorem lookupD_eraseK_none (d : TreeD) (q x : Pt)
    (h : lookupD d q = none) : lookupD (eraseK d x) q = none := by
  induction d with
  | nil => rfl
  | cons p c rest ihc ihr =>
    by_cases hp : p = q
    · simp [lookupD, hp] at h
    · rw [show lookupD (TreeD.cons p c rest) q = lookupD rest q by
        simp [lookupD, hp]] at h
      by_cases hx : p = x
      · rw [show eraseK (TreeD.cons p c rest) x = rest by simp [eraseK, hx]]
        exact h
      · rw [show eraseK (TreeD.cons p c rest) x =
            TreeD.cons p c (eraseK rest x) by simp [eraseK, hx]]
        rw [show lookupD (TreeD.cons p c (eraseK rest x)) q =
            lookupD (eraseK rest x) q by simp [lookupD, hp]]
        exact ihr h

theorem findPath_none_not_mem (r : Pt) (d : TreeD)
    (h : findPath r d = none) : r ∉ pointsM d := by
  induction d with
  | nil => simp [pointsM]
  | cons p c rest ihc ihr =>
    unfold findPath at h
    by_cases hp : p = r
    · rw [if_pos hp] at h; cases h
    · rw [if_neg hp] at h
      cases hc : findPath r c with
      | some v => rw [hc] at h; obtain ⟨a, b⟩ := v; cases h
      | none =>
        rw [hc] at h
        simp only [pointsM, Multiset.mem_add, Multiset.mem_singleton]
        push_neg
        exact ⟨⟨fun he => hp he.symm, ihc hc⟩, ihr h⟩

/-- The helper fact used for uniqueness reasoning: a point that occurs both
inside a sub-dict and as the child key of an enclosing node would occur
twice in the tree. -/
theorem lookupD_none_of_nodup (t kc c : TreeD) (p : Pt)
    (h1 : pointsM kc ≤ pointsM c) (h2 : {p} + pointsM c ≤ pointsM t)
    (hnd : (pointsM t).Nodup) : lookupD kc p = none := by
  cases hl : lookupD kc p with
  | none => rfl
  | some z =>
    exfalso
    have hp : p ∈ pointsM kc := lookup_mem_points kc p z hl
    have hc1 : 1 ≤ Multiset.count p (pointsM kc) :=
      Multiset.one_le_count_iff_mem.mpr hp
    have hc2 : Multiset.count p (pointsM kc) ≤
        Multiset.count p (pointsM c) := Multiset.count_le_of_le p h1
    have hc3 : Multiset.count p ({p} + pointsM c) ≤
        Multiset.count p (pointsM t) := Multiset.count_le_of_le p h2
    rw [Multiset.count_add, Multiset.count_singleton_self] at hc3
    have := (Multiset.nodup_iff_count_le_one.mp hnd) p
    omega

/-- The semantic content of a successful `findPath`, oriented deepest-first
(the order in which `_reroot`'s unwinding processes the ancestors): `(k,
kc)` is the found entry, each list element is the next enclosing ancestor
with its children dict, and the outermost list element is an entry of
`t`. -/
def revChainIn (t : TreeD) : Pt → TreeD → List (Pt × TreeD) → Prop
  | k, kc, [] => lookupD t k = some kc
  | k, kc, (p, c) :: L => lookupD c k = some kc ∧ revChainIn t p c L

theorem revChainIn_append (L : List (Pt × TreeD)) :
    ∀ (t d : TreeD) (k p : Pt) (kc : TreeD),
      revChainIn d k kc L → lookupD t p = some d →
      revChainIn t k kc (L ++ [(p, d)]) := by
  induction L with
  | nil =>
    intro t d k p kc h1 h2
    simp only [revChainIn] at h1
    simp only [List.nil_append, revChainIn]
    exact ⟨h1, h2⟩
  | cons e L ih =>
    obtain ⟨q, c⟩ := e
    intro t d k p kc h1 h2
    simp only [revChainIn] at h1
    simp only [List.cons_append, revChainIn]
    exact ⟨h1.1, ih t d q p c h1.2 h2⟩

theorem revChainIn_of_lookup_imp (L : List (Pt × TreeD)) :
    ∀ (t1 t2 : TreeD) (k : Pt) (kc : TreeD),
      (∀ q qc, lookupD t1 q = some qc → lookupD t2 q = some qc) →
      revChainIn t1 k kc L → revChainIn t2 k kc L := by
  induction L with
  | nil =>
    intro t1 t2 k kc himp h
    simp only [revChainIn] at h ⊢
    exact himp _ _ h
  | cons e L ih =>
    obtain ⟨p, c⟩ := e
    intro t1 t2 k kc himp h
    simp only [revChainIn] at h ⊢
    exact ⟨h.1, ih t1 t2 p c himp h.2⟩

theorem revChainIn_le (L : List (Pt × TreeD)) :
    ∀ (t : TreeD) (k : Pt) (kc : TreeD), revChainIn t k kc L →
      {k} + pointsM kc ≤ pointsM t ∧
        ∀ pc ∈ L, {pc.1} + pointsM pc.2 ≤ pointsM t := by
  induction L with
  | nil =>
    intro t k kc h
    simp only [revChainIn] at h
    exact ⟨pointsM_le_of_lookup t k kc h, by simp⟩
  | cons e L ih =>
    obtain ⟨p, c⟩ := e
    intro t k kc h
    simp only [revChainIn] at h
    obtain ⟨hpc, hrest⟩ := ih t p c h.2
    have hkk : {k} + pointsM kc ≤ pointsM c := pointsM_le_of_lookup c k kc h.1
    have hcc : pointsM c ≤ {p} + pointsM c := self_le_add_left _ _
    refine ⟨le_trans hkk (le_trans hcc hpc), ?_⟩
    intro pc hm
    rcases List.mem_cons.mp hm with he | hm2
    · rw [he]
      exact hpc
    · exact hrest pc hm2

theorem findPath_revChainIn (t : TreeD) (r : Pt) :
    ∀ anc ck, findPath r t = some (anc, ck) → (pointsM t).Nodup →
      revChainIn t r ck anc.reverse := by
  induction t with
  | nil => intro anc ck h _; cases h
  | cons p c rest ihc ihr =>
    intro anc ck h hnd
    have hndc : (pointsM c).Nodup :=
      Multiset.nodup_of_le
        (le_trans (self_le_add_left _ _)
          (self_le_add_right ({p} + pointsM c) (pointsM rest))) hnd
    have hndr : (pointsM rest).Nodup :=
      Multiset.nodup_of_le (self_le_add_left _ _) hnd
    unfold findPath at h
    by_cases hp : p = r
    · rw [if_pos hp] at h
      cases h
      simp only [List.reverse_nil, revChainIn]
      simp [lookupD, hp]
    · rw [if_neg hp] at h
      cases hfc : findPath r c with
      | some v =>
        obtain ⟨anc', ck'⟩ := v
        rw [hfc] at h
        cases h
        rw [List.reverse_cons]
        exact revChainIn_append _ _ _ _ _ _ (ihc _ _ hfc hndc)
          (by simp [lookupD])
      | none =>
        rw [hfc] at h
        have hlift : ∀ q qc, lookupD rest q = some qc →
            lookupD (TreeD.cons p c rest) q = some qc := by
          intro q qc hq
          have hqmem : q ∈ pointsM rest := lookup_mem_points rest q qc hq
          have hpq : p ≠ q := by
            intro he
            have h1 : 1 ≤ Multiset.count q (pointsM rest) :=
              Multiset.one_le_count_iff_mem.mpr hqmem
            have h2 := (Multiset.nodup_iff_count_le_one.mp hnd) q
            rw [show pointsM (TreeD.cons p c rest) =
                {p} + pointsM c + pointsM rest from rfl,
              Multiset.count_add, Multiset.count_add, he,
              Multiset.count_singleton_self] at h2
            omega
          rw [show lookupD (TreeD.cons p c rest) q = lookupD rest q by
            simp [lookupD, hpq]]
          exact hq
        exact revChainIn_of_lookup_imp _ rest (TreeD.cons p c rest) r ck
          hlift (ihr _ _ h hndr)

/-- The telescoping computation of `_reroot`'s pointer inversion: over a
found chain, `invChain` produces a node whose key is the deepest ancestor,
which is fresh for the found entry's children, and whose points and
undirected lines make up exactly the outermost ancestor's subtree minus the
found entry's own subtree. -/
theorem invChain_tel (L : List (Pt × TreeD)) :
    ∀ (t : TreeD) (k : Pt) (kc : TreeD),
      revChainIn t k kc L → (pointsM t).Nodup → L ≠ [] →
      ∃ q qc, invChain k L = some (q, qc) ∧ lookupD kc q = none ∧
        {q} + pointsM qc + ({k} + pointsM kc) =
          {(L.getLastD (k, kc)).1} + pointsM (L.getLastD (k, kc)).2 ∧
        ({uedge k q} + uedges (some q) qc) + uedges (some k) kc =
          uedges (some (L.getLastD (k, kc)).1) (L.getLastD (k, kc)).2 := by
  induction L with
  | nil => intro t k kc _ _ hne; exact absurd rfl hne
  | cons e L ih =>
    obtain ⟨p, c⟩ := e
    intro t k kc h hnd _
    simp only [revChainIn] at h
    obtain ⟨h1, h2⟩ := h
    have hsub : {p} + pointsM c ≤ pointsM t := (revChainIn_le L t p c h2).1
    have hkc : pointsM kc ≤ pointsM c :=
      le_trans (self_le_add_left _ _) (pointsM_le_of_lookup c k kc h1)
    have hfresh : lookupD kc p = none :=
      lookupD_none_of_nodup t kc c p hkc hsub hnd
    by_cases hL : L = []
    · subst hL
      simp only [revChainIn] at h2
      refine ⟨p, eraseK c k, rfl, hfresh, ?_, ?_⟩
      · show {p} + pointsM (eraseK c k) + ({k} + pointsM kc) =
          {p} + pointsM c
        rw [lookup_points c k kc h1]
        abel
      · show ({uedge k p} + uedges (some p) (eraseK c k)) +
            uedges (some k) kc = uedges (some p) c
        rw [lookup_uedges c k kc p h1, uedge_comm k p]
        abel
    · obtain ⟨q', qc', hinv', hfresh', hpts', hedg'⟩ := ih t p c h2 hnd hL
      have hfr2 : lookupD (eraseK c k) q' = none :=
        lookupD_eraseK_none c q' k hfresh'
      refine ⟨p, dictInsert (eraseK c k) q' qc', ?_, hfresh, ?_, ?_⟩
      · simp only [invChain, hinv']
      · rw [List.getLastD_cons, ← hpts', insert_points _ _ _ hfr2,
          lookup_points c k kc h1]
        abel
      · rw [List.getLastD_cons, ← hedg', insert_uedges _ _ _ _ hfr2,
          lookup_uedges c k kc p h1, uedge_comm k p]
        abel

/-- Claim C9: for every well-formed tree (a single root entry, all node
points distinct) and every node `r` occurring in it, `_reroot` succeeds and
returns a tree whose root is `r` and whose node multiset and undirected
line multiset are exactly those of the input: re-rooting changes only the
orientation, never the topology. -/
theorem reroot_preserves_topology (p0 : Pt) (c0 : TreeD) (r : Pt)
    (hnd : (iter_edges (TreeD.cons p0 c0 .nil)).Nodup)
    (hr : r ∈ iter_edges (TreeD.cons p0 c0 .nil)) :
    ∃ t', reroot (TreeD.cons p0 c0 .nil) r = some t' ∧
      (iter_edges t' : Multiset Pt) =
        (iter_edges (TreeD.cons p0 c0 .nil) : Multiset Pt) ∧
      (↑((iter_lines none t').map (fun e => uedge e.1 e.2)) :
          Multiset (Pt × Pt)) =
        ↑((iter_lines none (TreeD.cons p0 c0 .nil)).map
            (fun e => uedge e.1 e.2)) ∧
      get_root t' = some r := by
  have hndM : (pointsM (TreeD.cons p0 c0 .nil)).Nodup := by
    rw [pointsM_eq_iter_edges]
    exact Multiset.coe_nodup.mpr hnd
  have hrM : r ∈ pointsM (TreeD.cons p0 c0 .nil) := by
    rw [pointsM_eq_iter_edges]
    exact Multiset.mem_coe.mpr hr
  suffices h : ∃ t', reroot (TreeD.cons p0 c0 .nil) r = some t' ∧
      pointsM t' = pointsM (TreeD.cons p0 c0 .nil) ∧
      uedges none t' = uedges none (TreeD.cons p0 c0 .nil) ∧
      get_root t' = some r by
    obtain ⟨t', h1, h2, h3, h4⟩ := h
    refine ⟨t', h1, ?_, ?_, h4⟩
    · rw [← pointsM_eq_iter_edges, ← pointsM_eq_iter_edges, h2]
    · rw [← uedges_eq_iter_lines, ← uedges_eq_iter_lines, h3]
  by_cases hp0 : r = p0
  · refine ⟨TreeD.cons p0 c0 .nil, ?_, rfl, rfl, ?_⟩
    · simp [reroot, hp0]
    · simp [get_root, hp0]
  · have hrc : r ∈ pointsM c0 := by
      rw [show pointsM (TreeD.cons p0 c0 .nil) =
          {p0} + pointsM c0 + 0 from rfl] at hrM
      simp only [add_zero, Multiset.mem_add, Multiset.mem_singleton] at hrM
      exact hrM.resolve_left hp0
    cases hfc : findPath r c0 with
    | none => exact absurd hrc (findPath_none_not_mem r c0 hfc)
    | some v =>
      obtain ⟨anc', ck⟩ := v
      have hfp : findPath r (TreeD.cons p0 c0 .nil) =
          some ((p0, c0) :: anc', ck) := by
        unfold findPath
        rw [if_neg (fun h => hp0 h.symm), hfc]
      have hrci := findPath_revChainIn (TreeD.cons p0 c0 .nil) r _ _ hfp hndM
      rw [List.reverse_cons] at hrci
      obtain ⟨q, qc, hinv, hfresh, hpts, hedg⟩ :=
        invChain_tel _ _ _ _ hrci hndM (by simp)
      rw [List.getLastD_concat] at hpts hedg
      have hres : reroot (TreeD.cons p0 c0 .nil) r =
          some (TreeD.cons r (dictInsert ck q qc) .nil) := by
        simp only [reroot]
        rw [if_neg hp0, hfp]
        dsimp only
        rw [List.reverse_cons, hinv]
      refine ⟨_, hres, ?_, ?_, rfl⟩
      · show pointsM (TreeD.cons r (dictInsert ck q qc) .nil) =
          pointsM (TreeD.cons p0 c0 .nil)
        simp only [pointsM]
        rw [insert_points ck q qc hfresh, ← hpts]
        abel
      · show uedges none (TreeD.cons r (dictInsert ck q qc) .nil) =
          uedges none (TreeD.cons p0 c0 .nil)
        simp only [uedges]
        rw [insert_uedges ck q qc r hfresh, ← hedg]
        abel

/-- Witness for `reroot_preserves_topology`: re-rooting an L-shaped tree to
its far corner. -/
theorem reroot_preserves_topology_witness :
    ∃ t', reroot (TreeD.cons (0, 0)
        (TreeD.cons (3, 0) (TreeD.cons (3, 4) .nil .nil) .nil) .nil)
        (3, 4) = some t' ∧
      (iter_edges t' : Multiset Pt) =
        (iter_edges (TreeD.cons (0, 0)
          (TreeD.cons (3, 0) (TreeD.cons (3, 4) .nil .nil) .nil) .nil) :
            Multiset Pt) ∧
      (↑((iter_lines none t').map (fun e => uedge e.1 e.2)) :
          Multiset (Pt × Pt)) =
        ↑((iter_lines none (TreeD.cons (0, 0)
            (TreeD.cons (3, 0) (TreeD.cons (3, 4) .nil .nil) .nil) .nil)).map
            (fun e => uedge e.1 e.2)) ∧
      get_root t' = some (3, 4) :=
  reroot_preserves_topology (0, 0)
    (TreeD.cons (3, 0) (TreeD.cons (3, 4) .nil .nil) .nil) (3, 4)
    (by decide) (by decide)

/-- The multiset of directed lines of a tree dict below an optional origin;
the multiset view of `_iter_lines`. -/
def dedges : Option Pt → TreeD → Multiset (Pt × Pt)
  | _, .nil => 0
  | o, .cons p c rest =>
    (match o with
     | some a => ({(a, p)} : Multiset (Pt × Pt))
     | none => 0) + dedges (some p) c + dedges o rest

theorem dedges_eq_iter_lines (t : TreeD) : ∀ o : Option Pt,
    dedges o t = (iter_lines o t : Multiset (Pt × Pt)) := by
  induction t with
  | nil => intro o; cases o <;> simp [dedges, iter_lines]
  | cons p c rest ihc ihr =>
    intro o
    cases o with
    | none => simp [dedges, iter_lines, ihc, ihr]
    | some a => simp [dedges, iter_lines, ihc, ihr, Multiset.singleton_add]

theorem lookup_dedges (d : TreeD) (p : Pt) (c : TreeD) (a : Pt)
    (h : lookupD d p = some c) :
    dedges (some a) d =
      {(a, p)} + dedges (some p) c + dedges (some a) (eraseK d p) := by
  induction d with
  | nil => cases h
  | cons q cq rest ihc ihr =>
    by_cases hq : q = p
    · rw [show lookupD (TreeD.cons q cq rest) p = some cq by
        simp [lookupD, hq]] at h
      cases h
      simp only [dedges, eraseK, hq, eq_self_iff_true, if_true]
    · rw [show lookupD (TreeD.cons q cq rest) p = lookupD rest p by
        simp [lookupD, hq]] at h
      rw [show eraseK (TreeD.cons q cq rest) p =
          TreeD.cons q cq (eraseK rest p) by simp [eraseK, hq]]
      simp only [dedges, ihr h]
      abel

theorem insert_dedges (d : TreeD) (q : Pt) (v : TreeD) (a : Pt)
    (h : lookupD d q = none) :
    dedges (some a) (dictInsert d q v) =
      dedges (some a) d + ({(a, q)} + dedges (some q) v) := by
  induction d with
  | nil => simp [dictInsert, dedges]
  | cons p c rest ihc ihr =>
    by_cases hp : p = q
    · simp [lookupD, hp] at h
    · rw [show lookupD (TreeD.cons p c rest) q = lookupD rest q by
        simp [lookupD, hp]] at h
      rw [show dictInsert (TreeD.cons p c rest) q v =
          TreeD.cons p c (dictInsert rest q v) by simp [dictInsert, hp]]
      simp only [dedges, ihr h]
      abel

/-- The lines from an origin into a dict split into the lines to the dict's
own keys plus the lines internal to the entries. -/
theorem dedges_some_decomp (d : TreeD) (a : Pt) :
    dedges (some a) d =
      ↑((keysTop d).map (fun q => (a, q))) + dedges none d := by
  induction d with
  | nil => simp [dedges, keysTop]
  | cons p c rest ihc ihr =>
    simp only [dedges, keysTop, List.map, ihr]
    rw [← Multiset.cons_coe, ← Multiset.singleton_add]
    abel

/-- Dict lookup after inserting a different key. -/
theorem lookupD_dictInsert_ne (d : TreeD) (q x : Pt) (v : TreeD)
    (h : x ≠ q) : lookupD (dictInsert d q v) x = lookupD d x := by
  induction d with
  | nil => simp [dictInsert, lookupD, Ne.symm h]
  | cons p c rest ihc ihr =>
    by_cases hp : p = q
    · subst hp
      simp [dictInsert, lookupD, Ne.symm h]
    · rw [show dictInsert (TreeD.cons p c rest) q v =
          TreeD.cons p c (dictInsert rest q v) by simp [dictInsert, hp]]
      by_cases hx : p = x
      · simp [lookupD, hx]
      · simp [lookupD, hx, ihr]

theorem lookupD_none_of_not_mem (d : TreeD) (q : Pt)
    (h : q ∉ pointsM d) : lookupD d q = none := by
  cases hl : lookupD d q with
  | none => rfl
  | some z => exact absurd (lookup_mem_points d q z hl) h

theorem keysTop_mem_points (d : TreeD) (q : Pt) (h : q ∈ keysTop d) :
    q ∈ pointsM d := by
  induction d with
  | nil => cases h
  | cons p c rest ihc ihr =>
    simp only [keysTop, List.mem_cons] at h
    simp only [pointsM, Multiset.mem_add, Multiset.mem_singleton]
    rcases h with he | hm
    · exact Or.inl (Or.inl he)
    · exact Or.inr (ihr hm)

theorem lookupD_of_keysTop (d : TreeD) (q : Pt) (h : q ∈ keysTop d) :
    ∃ c, lookupD d q = some c := by
  induction d with
  | nil => cases h
  | cons p c rest ihc ihr =>
    simp only [keysTop, List.mem_cons] at h
    by_cases hp : p = q
    · exact ⟨c, by simp [lookupD, hp]⟩
    · rw [show lookupD (TreeD.cons p c rest) q = lookupD rest q by
        simp [lookupD, hp]]
      exact ihr (h.resolve_left fun he => hp he.symm)

/-- The well-formedness facts that follow from node points being globally
distinct in a dict entry. -/
theorem nodup_parts (p : Pt) (c rest : TreeD)
    (hnd : (pointsM (TreeD.cons p c rest)).Nodup) :
    (pointsM c).Nodup ∧ (pointsM rest).Nodup ∧
      p ∉ pointsM c ∧ p ∉ pointsM rest ∧
      ∀ x ∈ pointsM c, x ∉ pointsM rest := by
  rw [show pointsM (TreeD.cons p c rest) =
      {p} + pointsM c + pointsM rest from rfl] at hnd
  rw [Multiset.nodup_add] at hnd
  obtain ⟨hpc, hrest, hdis⟩ := hnd
  rw [Multiset.nodup_add] at hpc
  obtain ⟨_, hc, hdis2⟩ := hpc
  refine ⟨hc, hrest, ?_, ?_, ?_⟩
  · exact Multiset.disjoint_left.mp hdis2 (Multiset.mem_singleton_self p)
  · exact Multiset.disjoint_left.mp hdis (by simp)
  · intro x hx
    exact Multiset.disjoint_left.mp hdis
      (by simp only [Multiset.mem_add]; exact Or.inr hx)

/-- A helper to express "the subtree rooted at a given point", used to state
that splitting preserves the subtree below the far endpoint: depth-first
search for the first entry with the given key, returning its children
dict. -/
def subtree_at : TreeD → Pt → Option TreeD
  | .nil, _ => none
  | .cons q c rest, x =>
    if q = x then some c
    else
      match subtree_at c x with
      | some s => some s
      | none => subtree_at rest x

theorem subtree_at_none (d : TreeD) (x : Pt) (h : x ∉ pointsM d) :
    subtree_at d x = none := by
  induction d with
  | nil => rfl
  | cons q c rest ihc ihr =>
    simp only [pointsM, Multiset.mem_add, Multiset.mem_singleton] at h
    push_neg at h
    obtain ⟨⟨hq, hc⟩, hr⟩ := h
    simp only [subtree_at, Ne.symm hq, if_false, ihc hc, ihr hr]

theorem subtree_at_of_lookup (d : TreeD) (x : Pt) (sb : TreeD)
    (hnd : (pointsM d).Nodup) (h : lookupD d x = some sb) :
    subtree_at d x = some sb := by
  induction d with
  | nil => cases h
  | cons q c rest ihc ihr =>
    obtain ⟨hndc, hndr, hqc, hqr, hcr⟩ := nodup_parts q c rest hnd
    by_cases hq : q = x
    · rw [show lookupD (TreeD.cons q c rest) x = some c by
        simp [lookupD, hq]] at h
      cases h
      simp [subtree_at, hq]
    · rw [show lookupD (TreeD.cons q c rest) x = lookupD rest x by
        simp [lookupD, hq]] at h
      have hxr : x ∈ pointsM rest := lookup_mem_points rest x sb h
      have hxc : x ∉ pointsM c := fun hm => hcr x hm hxr
      simp only [subtree_at, hq, if_false, subtree_at_none c x hxc]
      exact ihr hndr h

theorem subtree_at_insert (d : TreeD) (pt b : Pt) (csub : TreeD)
    (hb : b ∉ pointsM d) (hpt : lookupD d pt = none) (hne : pt ≠ b) :
    subtree_at (dictInsert d pt (TreeD.cons b csub .nil)) b = some csub := by
  induction d with
  | nil => simp [dictInsert, subtree_at, hne]
  | cons q c rest ihc ihr =>
    by_cases hq : q = pt
    · simp [lookupD, hq] at hpt
    · rw [show lookupD (TreeD.cons q c rest) pt = lookupD rest pt by
        simp [lookupD, hq]] at hpt
      rw [show dictInsert (TreeD.cons q c rest) pt (TreeD.cons b csub .nil) =
          TreeD.cons q c (dictInsert rest pt (TreeD.cons b csub .nil)) by
        simp [dictInsert, hq]]
      simp only [pointsM, Multiset.mem_add, Multiset.mem_singleton] at hb
      push_neg at hb
      obtain ⟨⟨hqb, hbc⟩, hbr⟩ := hb
      simp only [subtree_at, Ne.symm hqb, if_false, subtree_at_none c b hbc]
      exact ihr hbr hpt

theorem subtree_at_splitAt (c : TreeD) (pt b : Pt) (csub : TreeD)
    (hnd : (pointsM c).Nodup) (hlk : lookupD c b = some csub)
    (hpt : lookupD c pt = none) (hne : pt ≠ b) :
    subtree_at (splitAt c pt b csub) b = some csub := by
  induction c with
  | nil => cases hlk
  | cons q cq rest ihc ihr =>
    obtain ⟨hndc, hndr, hqc, hqr, hcr⟩ := nodup_parts q cq rest hnd
    by_cases hq : q = pt
    · simp [lookupD, hq] at hpt
    · rw [show lookupD (TreeD.cons q cq rest) pt = lookupD rest pt by
        simp [lookupD, hq]] at hpt
      unfold splitAt
      rw [show dictInsert (TreeD.cons q cq rest) pt (TreeD.cons b csub .nil) =
          TreeD.cons q cq (dictInsert rest pt (TreeD.cons b csub .nil)) by
        simp [dictInsert, hq]]
      by_cases hqb : q = b
      · rw [show eraseK (TreeD.cons q cq
            (dictInsert rest pt (TreeD.cons b csub .nil))) b =
            dictInsert rest pt (TreeD.cons b csub .nil) by
          simp [eraseK, hqb]]
        exact subtree_at_insert rest pt b csub
          (fun hm => hqr (hqb ▸ hm)) hpt hne
      · rw [show lookupD (TreeD.cons q cq rest) b = lookupD rest b by
          simp [lookupD, hqb]] at hlk
        rw [show eraseK (TreeD.cons q cq
            (dictInsert rest pt (TreeD.cons b csub .nil))) b =
            TreeD.cons q cq
              (eraseK (dictInsert rest pt (TreeD.cons b csub .nil)) b) by
          simp [eraseK, hqb]]
        have hbr : b ∈ pointsM rest := lookup_mem_points rest b csub hlk
        have hbc : b ∉ pointsM cq := fun hm => hcr b hm hbr
        simp only [subtree_at, hqb, if_false, subtree_at_none cq b hbc]
        exact ihr hndr hlk hpt

theorem keysTop_line (c : TreeD) (n q : Pt) (h : q ∈ keysTop c) :
    (n, q) ∈ iter_lines (some n) c := by
  induction c with
  | nil => cases h
  | cons p cc rest ihc ihr =>
    rw [show iter_lines (some n) (TreeD.cons p cc rest) =
        (n, p) :: (iter_lines (some p) cc ++ iter_lines (some n) rest)
      from rfl]
    rcases List.mem_cons.mp (show q ∈ p :: keysTop rest from h) with he | hm
    · rw [he]
      exact List.mem_cons_self _ _
    · exact List.mem_cons_of_mem _ (List.mem_append_right _ (ihr hm))

theorem iter_lines_none_sub (c : TreeD) (n : Pt) :
    ∀ e ∈ iter_lines none c, e ∈ iter_lines (some n) c := by
  induction c with
  | nil => intro e he; cases he
  | cons p cc rest ihc ihr =>
    intro e he
    rw [show iter_lines (some n) (TreeD.cons p cc rest) =
        (n, p) :: (iter_lines (some p) cc ++ iter_lines (some n) rest)
      from rfl]
    rcases List.mem_append.mp
        (show e ∈ iter_lines (some p) cc ++ iter_lines none rest
          from he) with hm | hm
    · exact List.mem_cons_of_mem _ (List.mem_append_left _ hm)
    · exact List.mem_cons_of_mem _ (List.mem_append_right _ (ihr e hm))

theorem line_mem_decomp (c : TreeD) (n : Pt) (e : Pt × Pt)
    (h : e ∈ iter_lines (some n) c) :
    (∃ q ∈ keysTop c, e = (n, q)) ∨ e ∈ iter_lines none c := by
  induction c with
  | nil => cases h
  | cons p cc rest ihc ihr =>
    rcases List.mem_cons.mp
        (show e ∈ (n, p) ::
            (iter_lines (some p) cc ++ iter_lines (some n) rest)
          from h) with he | h2
    · exact Or.inl ⟨p, List.mem_cons_self _ _, he⟩
    · rcases List.mem_append.mp h2 with hm | hm
      · refine Or.inr ?_
        show e ∈ iter_lines (some p) cc ++ iter_lines none rest
        exact List.mem_append_left _ hm
      · rcases ihr hm with ⟨q, hq, he⟩ | hm2
        · exact Or.inl ⟨q, List.mem_cons_of_mem _ hq, he⟩
        · refine Or.inr ?_
          show e ∈ iter_lines (some p) cc ++ iter_lines none rest
          exact List.mem_append_right _ hm2

theorem line_dst_mem (d : TreeD) : ∀ (o : Option Pt) (x y : Pt),
    (x, y) ∈ iter_lines o d → y ∈ pointsM d := by
  induction d with
  | nil => intro o x y h; cases h
  | cons p c rest ihc ihr =>
    intro o x y h
    have hgoal : (y = p ∨ y ∈ pointsM c) ∨ y ∈ pointsM rest →
        y ∈ pointsM (TreeD.cons p c rest) := by
      intro hy
      simp only [pointsM, Multiset.mem_add, Multiset.mem_singleton]
      exact hy
    apply hgoal
    cases o with
    | none =>
      rcases List.mem_append.mp
          (show (x, y) ∈ iter_lines (some p) c ++ iter_lines none rest
            from h) with hm | hm
      · exact Or.inl (Or.inr (ihc (some p) x y hm))
      · exact Or.inr (ihr none x y hm)
    | some a =>
      rcases List.mem_cons.mp
          (show (x, y) ∈ (a, p) ::
              (iter_lines (some p) c ++ iter_lines (some a) rest)
            from h) with he | h2
      · exact Or.inl (Or.inl (congrArg Prod.snd he))
      · rcases List.mem_append.mp h2 with hm | hm
        · exact Or.inl (Or.inr (ihc (some p) x y hm))
        · exact Or.inr (ihr (some a) x y hm)

theorem line_src_mem_aux (d : TreeD) : ∀ (a x y : Pt),
    (x, y) ∈ iter_lines (some a) d → x = a ∨ x ∈ pointsM d := by
  induction d with
  | nil => intro a x y h; cases h
  | cons p c rest ihc ihr =>
    intro a x y h
    have hgoal : (x = p ∨ x ∈ pointsM c) ∨ x ∈ pointsM rest →
        x ∈ pointsM (TreeD.cons p c rest) := by
      intro hx
      simp only [pointsM, Multiset.mem_add, Multiset.mem_singleton]
      exact hx
    rcases List.mem_cons.mp
        (show (x, y) ∈ (a, p) ::
            (iter_lines (some p) c ++ iter_lines (some a) rest)
          from h) with he | h2
    · exact Or.inl (congrArg Prod.fst he)
    · rcases List.mem_append.mp h2 with hm | hm
      · rcases ihc p x y hm with he | hm2
        · exact Or.inr (hgoal (Or.inl (Or.inl he)))
        · exact Or.inr (hgoal (Or.inl (Or.inr hm2)))
      · rcases ihr a x y hm with he | hm2
        · exact Or.inl he
        · exact Or.inr (hgoal (Or.inr hm2))

theorem line_src_mem (d : TreeD) (x y : Pt)
    (h : (x, y) ∈ iter_lines none d) : x ∈ pointsM d := by
  induction d with
  | nil => cases h
  | cons p c rest ihc ihr =>
    have hgoal : (x = p ∨ x ∈ pointsM c) ∨ x ∈ pointsM rest →
        x ∈ pointsM (TreeD.cons p c rest) := by
      intro hx
      simp only [pointsM, Multiset.mem_add, Multiset.mem_singleton]
      exact hx
    rcases List.mem_append.mp
        (show (x, y) ∈ iter_lines (some p) c ++ iter_lines none rest
          from h) with hm | hm
    · rcases line_src_mem_aux c p x y hm with he | hm2
      · exact hgoal (Or.inl (Or.inl he))
      · exact hgoal (Or.inl (Or.inr hm2))
    · exact hgoal (Or.inr (ihr hm))

theorem keysTop_nodup (d : TreeD) (hnd : (pointsM d).Nodup) :
    (keysTop d).Nodup := by
  induction d with
  | nil => simp [keysTop]
  | cons p c rest ihc ihr =>
    obtain ⟨_, hndr, _, hpr, _⟩ := nodup_parts p c rest hnd
    simp only [keysTop, List.nodup_cons]
    exact ⟨fun hm => hpr (keysTop_mem_points rest p hm), ihr hndr⟩

theorem findSplitChild_none_of (c : TreeD) (n pt : Pt)
    (h : ∀ q ∈ keysTop c, strictly_between n q pt = false) :
    findSplitChild n pt c = none := by
  induction c with
  | nil => rfl
  | cons ch csub crest ihc ihr =>
    have hch : strictly_between n ch pt = false :=
      h ch (by simp [keysTop])
    simp only [findSplitChild, hch, Bool.false_eq_true, if_false]
    exact ihr fun q hq => h q (by simp [keysTop, hq])

theorem findSplitChild_some_sound (c : TreeD) (n pt ch : Pt) (csub : TreeD)
    (hnd : (keysTop c).Nodup)
    (h : findSplitChild n pt c = some (ch, csub)) :
    ch ∈ keysTop c ∧ strictly_between n ch pt = true ∧
      lookupD c ch = some csub := by
  induction c with
  | nil => cases h
  | cons q cq crest ihc ihr =>
    simp only [keysTop, List.nodup_cons] at hnd
    by_cases hq : strictly_between n q pt = true
    · rw [show findSplitChild n pt (TreeD.cons q cq crest) =
          some (q, cq) by simp [findSplitChild, hq]] at h
      injection h with h2
      injection h2 with h3 h4
      subst h3
      subst h4
      exact ⟨by simp [keysTop], hq, by simp [lookupD]⟩
    · rw [show findSplitChild n pt (TreeD.cons q cq crest) =
          findSplitChild n pt crest by simp [findSplitChild, hq]] at h
      obtain ⟨hm, hsb, hlk⟩ := ihr hnd.2 h
      have hne : q ≠ ch := fun he => hnd.1 (he ▸ hm)
      exact ⟨by simp [keysTop, hm], hsb,
        by rw [show lookupD (TreeD.cons q cq crest) ch = lookupD crest ch by
          simp [lookupD, hne]]; exact hlk⟩

theorem findSplitChild_finds (c : TreeD) (n pt b : Pt)
    (huni : ∀ q ∈ keysTop c, strictly_between n q pt = true → q = b)
    (hb : b ∈ keysTop c) (hsb : strictly_between n b pt = true) :
    ∃ csub, findSplitChild n pt c = some (b, csub) ∧
      lookupD c b = some csub := by
  induction c with
  | nil => cases hb
  | cons q cq crest ihc ihr =>
    by_cases hq : strictly_between n q pt = true
    · have hqb : q = b := huni q (by simp [keysTop]) hq
      refine ⟨cq, ?_, ?_⟩
      · rw [show findSplitChild n pt (TreeD.cons q cq crest) =
            some (q, cq) by simp [findSplitChild, hq]]
        rw [hqb]
      · simp [lookupD, hqb]
    · have hqb : q ≠ b := fun he => hq (he ▸ hsb)
      rw [show findSplitChild n pt (TreeD.cons q cq crest) =
          findSplitChild n pt crest by simp [findSplitChild, hq]]
      rw [show lookupD (TreeD.cons q cq crest) b = lookupD crest b by
        simp [lookupD, hqb]]
      refine ihr (fun q' hq' hsb' => huni q' (by simp [keysTop, hq']) hsb')
        (by
          simp only [keysTop, List.mem_cons] at hb
          exact hb.resolve_left fun he => hqb he.symm)

/-- When no line of the tree contains the point, `_split_line_of_tree`
finds nothing (`Point not found in tree`). -/
theorem split_helper_none_of (d : TreeD) (pt : Pt)
    (h : ∀ e ∈ iter_lines none d, strictly_between e.1 e.2 pt = false) :
    split_helper pt d = none := by
  induction d with
  | nil => rfl
  | cons n c rest ihc ihr =>
    have hfsc : findSplitChild n pt c = none := by
      apply findSplitChild_none_of
      intro q hq
      exact h (n, q) (by
        simp only [iter_lines, List.nil_append, List.mem_append]
        exact Or.inl (keysTop_line c n q hq))
    have hc : split_helper pt c = none := by
      apply ihc
      intro e he
      exact h e (by
        simp only [iter_lines, List.nil_append, List.mem_append]
        exact Or.inl (iter_lines_none_sub c n e he))
    have hr : split_helper pt rest = none := by
      apply ihr
      intro e he
      exact h e (by
        simp only [iter_lines, List.nil_append, List.mem_append]
        exact Or.inr he)
    simp [split_helper, hfsc, hc, hr]

/-- The main characterisation of `_split_line_of_tree.helper`: when the
point lies strictly inside exactly one line `(a, b)` of a well-formed tree,
the helper succeeds; the top-level keys are unchanged, the point `pt` is
added as a node, the line `(a, b)` is replaced by `(a, pt)` and `(pt, b)`,
and the subtree rooted at `b` is preserved. -/
theorem split_helper_spec (d : TreeD) : ∀ (pt a b : Pt),
    (pointsM d).Nodup → pt ∉ pointsM d →
    (a, b) ∈ iter_lines none d → strictly_between a b pt = true →
    (∀ e ∈ iter_lines none d, strictly_between e.1 e.2 pt = true →
      e = (a, b)) →
    ∃ t', split_helper pt d = some t' ∧
      keysTop t' = keysTop d ∧
      pointsM t' = {pt} + pointsM d ∧
      dedges none t' + {(a, b)} = dedges none d + ({(a, pt)} + {(pt, b)}) ∧
      subtree_at t' b = subtree_at d b := by
  induction d with
  | nil => intro pt a b _ _ hmem _ _; cases hmem
  | cons n c rest ihc ihr =>
    intro pt a b hnd hpt hmem hsb huniq
    obtain ⟨hndc, hndr, hnc, hnr, hcr⟩ := nodup_parts n c rest hnd
    have hptn : pt ≠ n := by
      intro he
      apply hpt
      simp [pointsM, he]
    have hptc : pt ∉ pointsM c := by
      intro hm
      apply hpt
      simp only [pointsM, Multiset.mem_add, Multiset.mem_singleton]
      exact Or.inl (Or.inr hm)
    have hptr : pt ∉ pointsM rest := by
      intro hm
      apply hpt
      simp only [pointsM, Multiset.mem_add, Multiset.mem_singleton]
      exact Or.inr hm
    have hline_c : ∀ e ∈ iter_lines none c,
        e ∈ iter_lines none (TreeD.cons n c rest) := by
      intro e he
      show e ∈ iter_lines (some n) c ++ iter_lines none rest
      exact List.mem_append_left _ (iter_lines_none_sub c n e he)
    have hline_r : ∀ e ∈ iter_lines none rest,
        e ∈ iter_lines none (TreeD.cons n c rest) := by
      intro e he
      show e ∈ iter_lines (some n) c ++ iter_lines none rest
      exact List.mem_append_right _ he
    have hline_top : ∀ q ∈ keysTop c,
        ((n, q) : Pt × Pt) ∈ iter_lines none (TreeD.cons n c rest) := by
      intro q hq
      show (n, q) ∈ iter_lines (some n) c ++ iter_lines none rest
      exact List.mem_append_left _ (keysTop_line c n q hq)
    cases hfsc : findSplitChild n pt c with
    | some v =>
      obtain ⟨ch, csub⟩ := v
      obtain ⟨hchk, hchsb, hchlk⟩ :=
        findSplitChild_some_sound c n pt ch csub (keysTop_nodup c hndc) hfsc
      have heq : ((n, ch) : Pt × Pt) = (a, b) :=
        huniq (n, ch) (hline_top ch hchk) hchsb
      have hna : n = a := congrArg Prod.fst heq
      have hchb : ch = b := congrArg Prod.snd heq
      subst hna
      subst hchb
      have hchpt : ch ≠ pt :=
        fun he => hptc (he ▸ keysTop_mem_points c ch hchk)
      have hlkcpt : lookupD c pt = none := lookupD_none_of_not_mem c pt hptc
      have hlkD : lookupD (dictInsert c pt (TreeD.cons ch csub .nil)) ch =
          some csub := by
        rw [lookupD_dictInsert_ne c pt ch _ hchpt]
        exact hchlk
      refine ⟨TreeD.cons n (splitAt c pt ch csub) rest, ?_, rfl, ?_, ?_, ?_⟩
      · simp [split_helper, hfsc]
      · -- points
        have hP1 := lookup_points _ ch csub hlkD
        have hP2 := insert_points c pt (TreeD.cons ch csub .nil) hlkcpt
        have key : pointsM (splitAt c pt ch csub) +
            ({ch} + pointsM csub) =
            (pointsM c + {pt}) + ({ch} + pointsM csub) := by
          calc pointsM (splitAt c pt ch csub) + ({ch} + pointsM csub) =
              {ch} + pointsM csub +
                pointsM (eraseK (dictInsert c pt
                  (TreeD.cons ch csub .nil)) ch) := by unfold splitAt; abel
            _ = pointsM (dictInsert c pt (TreeD.cons ch csub .nil)) :=
                hP1.symm
            _ = pointsM c + ({pt} + pointsM (TreeD.cons ch csub .nil)) := hP2
            _ = (pointsM c + {pt}) + ({ch} + pointsM csub) := by
                  simp only [pointsM]; abel
        have hkey2 : pointsM (splitAt c pt ch csub) = pointsM c + {pt} :=
          add_right_cancel key
        show {n} + pointsM (splitAt c pt ch csub) + pointsM rest =
          {pt} + ({n} + pointsM c + pointsM rest)
        rw [hkey2]
        abel
      · -- directed lines
        have hD1 := lookup_dedges _ ch csub n hlkD
        have hD2 := insert_dedges c pt (TreeD.cons ch csub .nil) n hlkcpt
        have key : (dedges (some n) (splitAt c pt ch csub) + {(n, ch)}) +
            dedges (some ch) csub =
            (dedges (some n) c + ({(n, pt)} + {(pt, ch)})) +
              dedges (some ch) csub := by
          calc (dedges (some n) (splitAt c pt ch csub) + {(n, ch)}) +
              dedges (some ch) csub =
              {(n, ch)} + dedges (some ch) csub +
                dedges (some n) (eraseK (dictInsert c pt
                  (TreeD.cons ch csub .nil)) ch) := by unfold splitAt; abel
            _ = dedges (some n) (dictInsert c pt (TreeD.cons ch csub .nil)) :=
                hD1.symm
            _ = dedges (some n) c +
                ({(n, pt)} + dedges (some pt) (TreeD.cons ch csub .nil)) :=
                hD2
            _ = (dedges (some n) c + ({(n, pt)} + {(pt, ch)})) +
                dedges (some ch) csub := by simp only [dedges]; abel
        have keyE : dedges (some n) (splitAt c pt ch csub) + {(n, ch)} =
            dedges (some n) c + ({(n, pt)} + {(pt, ch)}) :=
          add_right_cancel key
        show (0 + dedges (some n) (splitAt c pt ch csub) +
            dedges none rest) + {(n, ch)} =
          (0 + dedges (some n) c + dedges none rest) +
            ({(n, pt)} + {(pt, ch)})
        calc (0 + dedges (some n) (splitAt c pt ch csub) +
            dedges none rest) + {(n, ch)} =
            (dedges (some n) (splitAt c pt ch csub) + {(n, ch)}) +
              dedges none rest := by abel
          _ = (dedges (some n) c + ({(n, pt)} + {(pt, ch)})) +
              dedges none rest := by rw [keyE]
          _ = (0 + dedges (some n) c + dedges none rest) +
              ({(n, pt)} + {(pt, ch)}) := by abel
      · -- subtree below the far endpoint
        have hnch : n ≠ ch :=
          fun he => hnc (he ▸ keysTop_mem_points c ch hchk)
        have hL : subtree_at (splitAt c pt ch csub) ch = some csub :=
          subtree_at_splitAt c pt ch csub hndc hchlk hlkcpt (Ne.symm hchpt)
        have hR : subtree_at c ch = some csub :=
          subtree_at_of_lookup c ch csub hndc hchlk
        show (if n = ch then some (splitAt c pt ch csub)
            else match subtree_at (splitAt c pt ch csub) ch with
              | some s => some s
              | none => subtree_at rest ch) =
          (if n = ch then some c
            else match subtree_at c ch with
              | some s => some s
              | none => subtree_at rest ch)
        rw [if_neg hnch, if_neg hnch, hL, hR]
    | none =>
      cases hshc : split_helper pt c with
      | some c0 =>
        have hex : ∃ e ∈ iter_lines none c,
            strictly_between e.1 e.2 pt = true := by
          by_contra hall
          push_neg at hall
          have hnone : split_helper pt c = none := by
            apply split_helper_none_of
            intro e he
            cases hx : strictly_between e.1 e.2 pt with
            | false => rfl
            | true => exact absurd hx (hall e he)
          rw [hnone] at hshc
          cases hshc
        obtain ⟨e0, he0, hsb0⟩ := hex
        have he0ab : e0 = (a, b) := huniq e0 (hline_c e0 he0) hsb0
        obtain ⟨c', hsh, hkeys, hp, hd, hsub⟩ :=
          ihc pt a b hndc hptc (he0ab ▸ he0) hsb
            (fun e he hsbe => huniq e (hline_c e he) hsbe)
        rw [hsh] at hshc
        injection hshc with hcc
        subst hcc
        refine ⟨TreeD.cons n c' rest, ?_, rfl, ?_, ?_, ?_⟩
        · simp [split_helper, hfsc, hsh]
        · show {n} + pointsM c' + pointsM rest =
            {pt} + ({n} + pointsM c + pointsM rest)
          rw [hp]
          abel
        · show (0 + dedges (some n) c' + dedges none rest) + {(a, b)} =
            (0 + dedges (some n) c + dedges none rest) +
              ({(a, pt)} + {(pt, b)})
          rw [dedges_some_decomp c' n, dedges_some_decomp c n, hkeys]
          calc (0 + (↑((keysTop c).map (fun q => (n, q))) + dedges none c') +
              dedges none rest) + {(a, b)} =
              (dedges none c' + {(a, b)}) +
                (↑((keysTop c).map (fun q => (n, q))) +
                  dedges none rest) := by abel
            _ = (dedges none c + ({(a, pt)} + {(pt, b)})) +
                (↑((keysTop c).map (fun q => (n, q))) +
                  dedges none rest) := by rw [hd]
            _ = (0 + (↑((keysTop c).map (fun q => (n, q))) + dedges none c) +
                dedges none rest) + ({(a, pt)} + {(pt, b)}) := by abel
        · have hbc : b ∈ pointsM c := line_dst_mem c none a b (he0ab ▸ he0)
          have hnb : n ≠ b := fun he => hnc (he ▸ hbc)
          show (if n = b then some c'
              else match subtree_at c' b with
                | some s => some s
                | none => subtree_at rest b) =
            (if n = b then some c
              else match subtree_at c b with
                | some s => some s
                | none => subtree_at rest b)
          rw [if_neg hnb, if_neg hnb, hsub]
      | none =>
        have hnotc : ((a, b) : Pt × Pt) ∉ iter_lines none c := by
          intro hin
          obtain ⟨c', hsh, _⟩ :=
            ihc pt a b hndc hptc hin hsb
              (fun e he hsbe => huniq e (hline_c e he) hsbe)
          rw [hsh] at hshc
          cases hshc
        have hmemr : ((a, b) : Pt × Pt) ∈ iter_lines none rest := by
          rcases List.mem_append.mp
              (show ((a, b) : Pt × Pt) ∈
                  iter_lines (some n) c ++ iter_lines none rest
                from hmem) with hm | hm
          · exfalso
            rcases line_mem_decomp c n (a, b) hm with ⟨q, hq, he⟩ | hm2
            · have hna : n = a := (congrArg Prod.fst he).symm
              have hqb : q = b := (congrArg Prod.snd he).symm
              subst hna
              subst hqb
              obtain ⟨csub, hfind, _⟩ :=
                findSplitChild_finds c n pt q
                  (fun q' hq' hsb' =>
                    congrArg Prod.snd
                      (huniq (n, q') (hline_top q' hq') hsb'))
                  hq hsb
              rw [hfind] at hfsc
              cases hfsc
            · exact hnotc hm2
          · exact hm
        obtain ⟨rest', hsh, hkeys, hp, hd, hsub⟩ :=
          ihr pt a b hndr hptr hmemr hsb
            (fun e he hsbe => huniq e (hline_r e he) hsbe)
        refine ⟨TreeD.cons n c rest', ?_, ?_, ?_, ?_, ?_⟩
        · simp [split_helper, hfsc, hshc, hsh]
        · show n :: keysTop rest' = n :: keysTop rest
          rw [hkeys]
        · show {n} + pointsM c + pointsM rest' =
            {pt} + ({n} + pointsM c + pointsM rest)
          rw [hp]
          abel
        · show (0 + dedges (some n) c + dedges none rest') + {(a, b)} =
            (0 + dedges (some n) c + dedges none rest) +
              ({(a, pt)} + {(pt, b)})
          calc (0 + dedges (some n) c + dedges none rest') + {(a, b)} =
              (dedges none rest' + {(a, b)}) + dedges (some n) c := by abel
            _ = (dedges none rest + ({(a, pt)} + {(pt, b)})) +
                dedges (some n) c := by rw [hd]
            _ = (0 + dedges (some n) c + dedges none rest) +
                ({(a, pt)} + {(pt, b)}) := by abel
        · have hbr : b ∈ pointsM rest := line_dst_mem rest none a b hmemr
          have hnb : n ≠ b := fun he => hnr (he ▸ hbr)
          show (if n = b then some c
              else match subtree_at c b with
                | some s => some s
                | none => subtree_at rest' b) =
            (if n = b then some c
              else match subtree_at c b with
                | some s => some s
                | none => subtree_at rest b)
          rw [if_neg hnb, if_neg hnb]
          cases hsc : subtree_at c b with
          | some s => rfl
          | none => rw [hsub]

/-- Claim C3: for every well-formed tree containing a line `(a, b)` and
every point `p` lying strictly between `a` and `b` on that line (and on no
other line of the tree), `_split_line_of_tree` replaces the line `(a, b)`
by the two lines `(a, p)` and `(p, b)` — all other lines and nodes are
unchanged, with `p` added as a node — while preserving the subtree rooted
at `b`; for a point contained in no line of the tree, the split fails
(`"Point not found in tree"`, the DisjointAttach rejection). -/
theorem split_line_of_tree_spec (t : TreeD) (p a b : Pt) :
    ((iter_edges t).Nodup → p ∉ iter_edges t →
      (a, b) ∈ lines t → strictly_between a b p = true →
      (∀ e ∈ lines t, strictly_between e.1 e.2 p = true → e = (a, b)) →
      ∃ t', split_line_of_tree t p = some t' ∧
        (lines t' : Multiset (Pt × Pt)) + {(a, b)} =
          (lines t : Multiset (Pt × Pt)) + ({(a, p)} + {(p, b)}) ∧
        (iter_edges t' : Multiset Pt) = {p} + (iter_edges t : Multiset Pt) ∧
        subtree_at t' b = subtree_at t b) ∧
    ((∀ e ∈ lines t, strictly_between e.1 e.2 p = false) →
      split_line_of_tree t p = none) := by
  constructor
  · intro hnd hp hmem hsb huniq
    have hndM : (pointsM t).Nodup := by
      rw [pointsM_eq_iter_edges]
      exact Multiset.coe_nodup.mpr hnd
    have hpM : p ∉ pointsM t := by
      rw [pointsM_eq_iter_edges]
      exact fun hm => hp (Multiset.mem_coe.mp hm)
    obtain ⟨t', hsh, hkeys, hpts, hded, hsub⟩ :=
      split_helper_spec t p a b hndM hpM hmem hsb huniq
    refine ⟨t', hsh, ?_, ?_, hsub⟩
    · show (↑(iter_lines none t') : Multiset (Pt × Pt)) + {(a, b)} =
        ↑(iter_lines none t) + ({(a, p)} + {(p, b)})
      rw [← dedges_eq_iter_lines t' none, ← dedges_eq_iter_lines t none]
      exact hded
    · rw [← pointsM_eq_iter_edges, ← pointsM_eq_iter_edges]
      exact hpts
  · intro hall
    exact split_helper_none_of t p hall

/-- Witness for `split_line_of_tree_spec`: splits the segment
`(0,0)–(4,0)` at `(2,0)`; rejects the off-tree point `(9,9)`. -/
theorem split_line_of_tree_spec_witness :
    (∃ t', split_line_of_tree
          (TreeD.cons (0, 0) (TreeD.cons (4, 0) .nil .nil) .nil) (2, 0) =
        some t' ∧
        (lines t' : Multiset (Pt × Pt)) + {((0, 0), (4, 0))} =
          (lines (TreeD.cons (0, 0) (TreeD.cons (4, 0) .nil .nil) .nil) :
              Multiset (Pt × Pt)) +
            ({((0, 0), (2, 0))} + {((2, 0), (4, 0))}) ∧
        (iter_edges t' : Multiset Pt) =
          {(2, 0)} + (iter_edges
            (TreeD.cons (0, 0) (TreeD.cons (4, 0) .nil .nil) .nil) :
              Multiset Pt) ∧
        subtree_at t' (4, 0) =
          subtree_at
            (TreeD.cons (0, 0) (TreeD.cons (4, 0) .nil .nil) .nil) (4, 0)) ∧
      split_line_of_tree
          (TreeD.cons (0, 0) (TreeD.cons (4, 0) .nil .nil) .nil) (9, 9) =
        none :=
  ⟨(split_line_of_tree_spec
      (TreeD.cons (0, 0) (TreeD.cons (4, 0) .nil .nil) .nil)
      (2, 0) (0, 0) (4, 0)).1
      (by decide) (by decide) (by decide) (by decide) (by decide),
   (split_line_of_tree_spec
      (TreeD.cons (0, 0) (TreeD.cons (4, 0) .nil .nil) .nil)
      (9, 9) (0, 0) (4, 0)).2 (by decide)⟩

/-! ### Claim C2: merging two trees that share exactly one grid point -/

theorem lookupD_dictInsert_self (d : TreeD) (q : Pt) (v : TreeD) :
    lookupD (dictInsert d q v) q = some v := by
  induction d with
  | nil => simp [dictInsert, lookupD]
  | cons p c rest ihc ihr =>
    by_cases hp : p = q
    · rw [show dictInsert (TreeD.cons p c rest) q v =
          TreeD.cons p v rest by simp [dictInsert, hp]]
      simp [lookupD, hp]
    · rw [show dictInsert (TreeD.cons p c rest) q v =
          TreeD.cons p c (dictInsert rest q v) by simp [dictInsert, hp]]
      rw [show lookupD (TreeD.cons p c (dictInsert rest q v)) q =
          lookupD (dictInsert rest q v) q by simp [lookupD, hp]]
      exact ihr

theorem lookupD_eraseK_ne (d : TreeD) (x y : Pt) (hne : x ≠ y) :
    lookupD (eraseK d y) x = lookupD d x := by
  induction d with
  | nil => rfl
  | cons p c rest ihc ihr =>
    by_cases hp : p = y
    · rw [show eraseK (TreeD.cons p c rest) y = rest by simp [eraseK, hp]]
      rw [show lookupD (TreeD.cons p c rest) x = lookupD rest x by
        simp [lookupD, show ¬ p = x from fun he => hne (he ▸ hp)]]
    · rw [show eraseK (TreeD.cons p c rest) y =
          TreeD.cons p c (eraseK rest y) by simp [eraseK, hp]]
      by_cases hx : p = x
      · simp [lookupD, hx]
      · simp only [lookupD, if_neg hx]
        exact ihr

/-- The child returned by the scan of `_split_line_of_tree.helper` satisfies
the branch condition (its line from `node` strictly contains the point). -/
theorem findSplitChild_strict (c : TreeD) (n pt ch : Pt) (csub : TreeD)
    (h : findSplitChild n pt c = some (ch, csub)) :
    strictly_between n ch pt = true := by
  induction c with
  | nil => cases h
  | cons q cq crest ihc ihr =>
    by_cases hq : strictly_between n q pt = true
    · rw [show findSplitChild n pt (TreeD.cons q cq crest) = some (q, cq) by
        simp [findSplitChild, hq]] at h
      injection h with h2
      injection h2 with h3 h4
      subst h3
      exact hq
    · rw [show findSplitChild n pt (TreeD.cons q cq crest) =
          findSplitChild n pt crest by simp [findSplitChild, hq]] at h
      exact ihr h

theorem findSplitChild_none_imp (c : TreeD) (n pt : Pt)
    (h : findSplitChild n pt c = none) :
    ∀ q ∈ keysTop c, strictly_between n q pt = false := by
  induction c with
  | nil => intro q hq; cases hq
  | cons ch csub crest ihc ihr =>
    by_cases hch : strictly_between n ch pt = true
    · rw [show findSplitChild n pt (TreeD.cons ch csub crest) =
          some (ch, csub) by simp [findSplitChild, hch]] at h
      cases h
    · intro q hq
      rcases List.mem_cons.mp (show q ∈ ch :: keysTop crest from hq)
        with he | hm
      · rw [he]
        cases hb : strictly_between n ch pt with
        | false => rfl
        | true => exact absurd hb hch
      · rw [show findSplitChild n pt (TreeD.cons ch csub crest) =
            findSplitChild n pt crest by simp [findSplitChild, hch]] at h
        exact ihr h q hm

/-- `_split_line_of_tree.helper` succeeds as soon as some line of the tree
strictly contains the point (no uniqueness needed). -/
theorem split_helper_isSome (d : TreeD) : ∀ (pt : Pt) (e : Pt × Pt),
    e ∈ iter_lines none d → strictly_between e.1 e.2 pt = true →
    ∃ t', split_helper pt d = some t' := by
  induction d with
  | nil => intro pt e he _; cases he
  | cons n c rest ihc ihr =>
    intro pt e he hsb
    cases hfsc : findSplitChild n pt c with
    | some v =>
      obtain ⟨ch, csub⟩ := v
      refine ⟨TreeD.cons n (splitAt c pt ch csub) rest, ?_⟩
      simp [split_helper, hfsc]
    | none =>
      cases hc : split_helper pt c with
      | some c' =>
        refine ⟨TreeD.cons n c' rest, ?_⟩
        simp [split_helper, hfsc, hc]
      | none =>
        cases hr : split_helper pt rest with
        | some rest' =>
          refine ⟨TreeD.cons n c rest', ?_⟩
          simp [split_helper, hfsc, hc, hr]
        | none =>
          exfalso
          rcases List.mem_append.mp
              (show e ∈ iter_lines (some n) c ++ iter_lines none rest
                from he) with hm | hm
          · rcases line_mem_decomp c n e hm with ⟨q, hq, heq⟩ | hm2
            · have hf := findSplitChild_none_imp c n pt hfsc q hq
              rw [heq] at hsb
              dsimp only at hsb
              rw [hf] at hsb
              simp at hsb
            · obtain ⟨t', ht'⟩ := ihc pt e hm2 hsb
              rw [hc] at ht'
              exact Option.noConfusion ht'
          · obtain ⟨t', ht'⟩ := ihr pt e hm hsb
            rw [hr] at ht'
            exact Option.noConfusion ht'

/-- After a successful split the split point is a node of the result. -/
theorem split_helper_mem_point (d : TreeD) : ∀ (pt : Pt) (t' : TreeD),
    split_helper pt d = some t' → pt ∈ pointsM t' := by
  induction d with
  | nil => intro pt t' h; cases h
  | cons n c rest ihc ihr =>
    intro pt t' h
    cases hfsc : findSplitChild n pt c with
    | some v =>
      obtain ⟨ch, csub⟩ := v
      rw [show split_helper pt (TreeD.cons n c rest) =
          some (TreeD.cons n (splitAt c pt ch csub) rest) by
        simp [split_helper, hfsc]] at h
      injection h with h2
      subst h2
      have hstrict := findSplitChild_strict c n pt ch csub hfsc
      have hne : pt ≠ ch := by
        unfold strictly_between at hstrict
        simp only [Bool.and_eq_true, decide_eq_true_eq] at hstrict
        exact hstrict.2
      have hlk : lookupD (splitAt c pt ch csub) pt =
          some (TreeD.cons ch csub .nil) := by
        unfold splitAt
        rw [lookupD_eraseK_ne _ pt ch hne]
        exact lookupD_dictInsert_self c pt (TreeD.cons ch csub .nil)
      have hmem := lookup_mem_points (splitAt c pt ch csub) pt _ hlk
      simp only [pointsM, Multiset.mem_add]
      exact Or.inl (Or.inr hmem)
    | none =>
      cases hc : split_helper pt c with
      | some c' =>
        rw [show split_helper pt (TreeD.cons n c rest) =
            some (TreeD.cons n c' rest) by simp [split_helper, hfsc, hc]] at h
        injection h with h2
        subst h2
        simp only [pointsM, Multiset.mem_add]
        exact Or.inl (Or.inr (ihc pt c' hc))
      | none =>
        cases hr : split_helper pt rest with
        | some rest' =>
          rw [show split_helper pt (TreeD.cons n c rest) =
              some (TreeD.cons n c rest') by
            simp [split_helper, hfsc, hc, hr]] at h
          injection h with h2
          subst h2
          simp only [pointsM, Multiset.mem_add]
          exact Or.inr (ihr pt rest' hr)
        | none =>
          rw [show split_helper pt (TreeD.cons n c rest) = none by
            simp [split_helper, hfsc, hc, hr]] at h
          exact Option.noConfusion h

/-- Splitting a single-rooted tree keeps it single-rooted with the same
root key. -/
theorem split_helper_single_root (n : Pt) (c : TreeD) (pt : Pt) (t' : TreeD)
    (h : split_helper pt (TreeD.cons n c .nil) = some t') :
    ∃ c', t' = TreeD.cons n c' .nil := by
  cases hfsc : findSplitChild n pt c with
  | some v =>
    obtain ⟨ch, csub⟩ := v
    rw [show split_helper pt (TreeD.cons n c .nil) =
        some (TreeD.cons n (splitAt c pt ch csub) .nil) by
      simp [split_helper, hfsc]] at h
    injection h with h2
    exact ⟨splitAt c pt ch csub, h2.symm⟩
  | none =>
    cases hc : split_helper pt c with
    | some c' =>
      rw [show split_helper pt (TreeD.cons n c .nil) =
          some (TreeD.cons n c' .nil) by simp [split_helper, hfsc, hc]] at h
      injection h with h2
      exact ⟨c', h2.symm⟩
    | none =>
      rw [show split_helper pt (TreeD.cons n c .nil) = none by
        simp [split_helper, hfsc, hc]] at h
      exact Option.noConfusion h

/-- `_reroot` of a (single-rooted) tree to any of its nodes succeeds and
returns a tree whose only top-level entry is the new root. -/
theorem reroot_singleton_some (n : Pt) (c : TreeD) (cp : Pt)
    (hm : cp ∈ pointsM (TreeD.cons n c .nil)) :
    ∃ X, reroot (TreeD.cons n c .nil) cp = some (TreeD.cons cp X .nil) := by
  by_cases hcpn : cp = n
  · subst hcpn
    exact ⟨c, by simp [reroot]⟩
  · cases hfp2 : findPath cp (TreeD.cons n c .nil) with
    | none => exact absurd hm (findPath_none_not_mem cp _ hfp2)
    | some pr =>
      obtain ⟨anc, ck⟩ := pr
      cases hic : invChain cp anc.reverse with
      | none =>
        refine ⟨ck, ?_⟩
        simp only [reroot]
        rw [if_neg hcpn, hfp2]
        dsimp only
        rw [hic]
      | some qr =>
        obtain ⟨q, qc⟩ := qr
        refine ⟨dictInsert ck q qc, ?_⟩
        simp only [reroot]
        rw [if_neg hcpn, hfp2]
        dsimp only
        rw [hic]

/-- `_merge_root_lines_of_tree` on a tree with a single top-level entry
always succeeds and returns a single-rooted tree: either the input itself
(root unchanged), or — when the root has exactly two children collinear
with it — the first child becomes the root and the second is hung below
it. -/
theorem merge_root_lines_single (cp : Pt) (cm : TreeD) :
    ∃ q qc, merge_root_lines_of_tree (TreeD.cons cp cm .nil) =
        some (TreeD.cons q qc .nil) ∧
      (q = cp ∨ ∃ ac cz cc, cm = TreeD.cons q ac (TreeD.cons cz cc .nil) ∧
        ((q.1 = cp.1 ∧ cp.1 = cz.1) ∨ (q.2 = cp.2 ∧ cp.2 = cz.2))) := by
  rcases cm with _ | ⟨a, ac, cr⟩
  · exact ⟨cp, .nil, by simp [merge_root_lines_of_tree, lenTop], Or.inl rfl⟩
  · rcases cr with _ | ⟨cz, cc, cr2⟩
    · exact ⟨cp, TreeD.cons a ac .nil,
        by simp [merge_root_lines_of_tree, lenTop], Or.inl rfl⟩
    · rcases cr2 with _ | ⟨d, dc, dr⟩
      · by_cases hcol : (a.1 = cp.1 ∧ cp.1 = cz.1) ∨
            (a.2 = cp.2 ∧ cp.2 = cz.2)
        · refine ⟨a, dictInsert ac cz cc, ?_,
            Or.inr ⟨ac, cz, cc, rfl, hcol⟩⟩
          unfold merge_root_lines_of_tree
          dsimp only
          rw [if_pos hcol]
          simp [lenTop]
        · refine ⟨cp, TreeD.cons a ac (TreeD.cons cz cc .nil), ?_,
            Or.inl rfl⟩
          unfold merge_root_lines_of_tree
          dsimp only
          rw [if_neg hcol]
          simp [lenTop]
      · exact ⟨cp, TreeD.cons a ac (TreeD.cons cz cc (TreeD.cons d dc dr)),
          by simp [merge_root_lines_of_tree, lenTop], Or.inl rfl⟩

/-- Membership of the collision-point set: such a point is a node of one
tree contained in the other. -/
theorem col_points_mem_cases (t1 t2 : TreeD) (x : Pt)
    (h : x ∈ col_points t1 t2) :
    (x ∈ iter_edges t1 ∧ tree_contains t2 x = true) ∨
      (x ∈ iter_edges t2 ∧ tree_contains t1 x = true) := by
  unfold col_points at h
  rw [List.mem_dedup] at h
  rcases List.mem_append.mp h with hm | hm
  · rcases List.mem_filter.mp hm with ⟨hmem, hpred⟩
    exact Or.inl ⟨hmem, hpred⟩
  · rcases List.mem_filter.mp hm with ⟨hmem, hpred⟩
    exact Or.inr ⟨hmem, hpred⟩

/-- The per-tree preparation step of `merge_tree` (take the tree itself when
the collision point is one of its nodes, otherwise split it there) succeeds
for a single-rooted tree containing the point, keeps it single-rooted, and
the point is a node of the result. -/
theorem merge_side_some (t : TreeD) (p : Pt) (c : TreeD) (cp : Pt)
    (ht : t = TreeD.cons p c .nil)
    (hor : cp ∈ iter_edges t ∨ tree_contains t cp = true) :
    ∃ cc, (if cp ∈ iter_edges t then some t
        else split_line_of_tree t cp) = some (TreeD.cons p cc .nil) ∧
      cp ∈ pointsM (TreeD.cons p cc .nil) := by
  by_cases hm : cp ∈ iter_edges t
  · refine ⟨c, ?_, ?_⟩
    · rw [if_pos hm, ht]
    · rw [← ht, pointsM_eq_iter_edges]
      exact Multiset.mem_coe.mpr hm
  · have hc : tree_contains t cp = true := hor.resolve_left hm
    rw [tree_contains, List.any_eq_true] at hc
    obtain ⟨e, he, hos⟩ := hc
    have hcpn : cp ∉ pointsM t := by
      rw [pointsM_eq_iter_edges]
      exact fun hmm => hm (Multiset.mem_coe.mp hmm)
    have hmem1 : e.1 ∈ pointsM t := line_src_mem t e.1 e.2 he
    have hmem2 : e.2 ∈ pointsM t := line_dst_mem t none e.1 e.2 he
    have hne1 : cp ≠ e.1 := fun heq => hcpn (by rw [heq]; exact hmem1)
    have hne2 : cp ≠ e.2 := fun heq => hcpn (by rw [heq]; exact hmem2)
    have hsb : strictly_between e.1 e.2 cp = true := by
      unfold strictly_between
      simp [hos, hne1, hne2]
    obtain ⟨t', ht'⟩ := split_helper_isSome t cp e he hsb
    obtain ⟨c', hc'⟩ := split_helper_single_root p c cp t' (ht ▸ ht')
    subst hc'
    refine ⟨c', ?_, ?_⟩
    · rw [if_neg hm]
      show split_helper cp t = some (TreeD.cons p c' .nil)
      exact ht'
    · exact split_helper_mem_point t cp _ ht'

/-- Claim C2: for two single-rooted line trees that share exactly one grid
point `cp` (the collision-point set of `merge_tree` is `{cp}`), `merge_tree`
succeeds and produces a single connected tree: the result has exactly one
top-level (root) entry, obtained by splitting each tree at `cp` when needed,
re-rooting both to `cp` and fusing the root lines.  The shared point is the
root of the merged tree in every case EXCEPT when the merged root has
exactly two outgoing segments collinear with it: then
`_merge_root_lines_of_tree` fuses the two segments and the first such
neighbour — not the shared point — becomes the root (see
`merge_shared_point_not_root` for a concrete instance). -/
theorem merge_exactly_one_point (t1 t2 : TreeD) (p1 p2 cp : Pt)
    (c1 c2 : TreeD)
    (h1 : t1 = TreeD.cons p1 c1 .nil) (h2 : t2 = TreeD.cons p2 c2 .nil)
    (hcp : col_points t1 t2 = [cp]) :
    ∃ t' q qc cm, merge_tree t1 t2 = .ok t' ∧
      t' = TreeD.cons q qc .nil ∧
      merge_root_lines_of_tree (TreeD.cons cp cm .nil) = some t' ∧
      (q = cp ∨ ∃ ac cz cc, cm = TreeD.cons q ac (TreeD.cons cz cc .nil) ∧
        ((q.1 = cp.1 ∧ cp.1 = cz.1) ∨ (q.2 = cp.2 ∧ cp.2 = cz.2))) := by
  have hmemc : cp ∈ col_points t1 t2 := by
    rw [hcp]
    exact List.mem_singleton.mpr rfl
  have hcases := col_points_mem_cases t1 t2 cp hmemc
  have hor1 : cp ∈ iter_edges t1 ∨ tree_contains t1 cp = true := by
    rcases hcases with ⟨hm, _⟩ | ⟨_, hc⟩
    · exact Or.inl hm
    · exact Or.inr hc
  have hor2 : cp ∈ iter_edges t2 ∨ tree_contains t2 cp = true := by
    rcases hcases with ⟨_, hc⟩ | ⟨hm, _⟩
    · exact Or.inr hc
    · exact Or.inl hm
  obtain ⟨cc1, hif1, hmem1⟩ := merge_side_some t1 p1 c1 cp h1 hor1
  obtain ⟨cc2, hif2, hmem2⟩ := merge_side_some t2 p2 c2 cp h2 hor2
  obtain ⟨X, hra⟩ := reroot_singleton_some p1 cc1 cp hmem1
  obtain ⟨Y, hrb⟩ := reroot_singleton_some p2 cc2 cp hmem2
  obtain ⟨q, qc, hmr, hdisj⟩ := merge_root_lines_single cp (dictUpdate X Y)
  have hmerge : merge_tree t1 t2 = .ok (TreeD.cons q qc .nil) := by
    unfold merge_tree
    rw [hcp]
    rw [if_neg (by simp)]
    dsimp only
    rw [hif1, hif2]
    dsimp only
    rw [hra, hrb]
    dsimp only
    rw [show lookupD (TreeD.cons cp X .nil) cp = some X by simp [lookupD],
        show lookupD (TreeD.cons cp Y .nil) cp = some Y by simp [lookupD]]
    dsimp only
    rw [show dictInsert (TreeD.cons cp X .nil) cp (dictUpdate X Y) =
        TreeD.cons cp (dictUpdate X Y) .nil by simp [dictInsert]]
    rw [hmr]
  exact ⟨TreeD.cons q qc .nil, q, qc, dictUpdate X Y, hmerge, rfl, hmr,
    hdisj⟩

/-- Counterexample to the spec's "the shared point becomes the root of the
merged tree": the trees `{(0,0): {(2,0): {}}}` and `{(2,0): {(5,0): {}}}`
share exactly the grid point `(2,0)` and merge successfully, but the merged
tree is `{(0,0): {(5,0): {}}}`, rooted at `(0,0)`: after re-rooting both
trees to `(2,0)` the merged root has the two collinear neighbours `(0,0)`
and `(5,0)`, so `_merge_root_lines_of_tree` fuses the two segments and
makes `(0,0)` the root. -/
theorem merge_shared_point_not_root :
    col_points (TreeD.cons (0, 0) (TreeD.cons (2, 0) .nil .nil) .nil)
        (TreeD.cons (2, 0) (TreeD.cons (5, 0) .nil .nil) .nil) = [(2, 0)] ∧
      merge_tree (TreeD.cons (0, 0) (TreeD.cons (2, 0) .nil .nil) .nil)
          (TreeD.cons (2, 0) (TreeD.cons (5, 0) .nil .nil) .nil) =
        .ok (TreeD.cons (0, 0) (TreeD.cons (5, 0) .nil .nil) .nil) ∧
      get_root (TreeD.cons (0, 0) (TreeD.cons (5, 0) .nil .nil) .nil) ≠
        some (2, 0) :=
  ⟨by decide, by rfl, by decide⟩

/-- Witness for `merge_exactly_one_point`: `{(0,0): {(2,0): {}}}` merged
with `{(2,0): {(2,3): {}}}` (shared point `(2,0)`, segments not collinear
there). -/
theorem merge_exactly_one_point_witness :
    col_points (TreeD.cons (0, 0) (TreeD.cons (2, 0) .nil .nil) .nil)
        (TreeD.cons (2, 0) (TreeD.cons (2, 3) .nil .nil) .nil) = [(2, 0)] ∧
      (∃ t' q qc cm,
        merge_tree (TreeD.cons (0, 0) (TreeD.cons (2, 0) .nil .nil) .nil)
            (TreeD.cons (2, 0) (TreeD.cons (2, 3) .nil .nil) .nil) =
          .ok t' ∧
        t' = TreeD.cons q qc .nil ∧
        merge_root_lines_of_tree (TreeD.cons (2, 0) cm .nil) = some t' ∧
        (q = (2, 0) ∨
          ∃ ac cz cc, cm = TreeD.cons q ac (TreeD.cons cz cc .nil) ∧
            ((q.1 = (2 : Int) ∧ (2 : Int) = cz.1) ∨
              (q.2 = (0 : Int) ∧ (0 : Int) = cz.2)))) :=
  ⟨by decide,
   merge_exactly_one_point
     (TreeD.cons (0, 0) (TreeD.cons (2, 0) .nil .nil) .nil)
     (TreeD.cons (2, 0) (TreeD.cons (2, 3) .nil .nil) .nil)
     (0, 0) (2, 0) (2, 0) (TreeD.cons (2, 0) .nil .nil)
     (TreeD.cons (2, 3) .nil .nil) rfl rfl (by decide)⟩

end LogikSim
